import Mathlib

/-!
# A shallow embedding of the MIPS instruction-level simulator core (`src/sim.c`)

`uint32_t` values are natural numbers below `2^32`; every C expression that can
overflow is reduced with an explicit `% 2^32`.  Signed readings (`(int32_t) x`)
are integers.  The globals `CURRENT_STATE`, `NEXT_STATE`, `RUN_BIT` and the
memory behind `mem_read_32` / `mem_write_32` are threaded explicitly through a
`Machine` record.  A step whose C expression has no defined result (integer
division by zero, `INT_MIN / -1`) returns `none`.
-/

namespace Sim

/-! ## Machine words -/

/-- Truncation to `uint32_t`. -/
def u32 (x : Nat) : Nat := x % 2 ^ 32

/-- The cast `(int32_t) x` of a 32-bit word: its two's-complement reading. -/
def toInt32 (x : Nat) : Int := if x < 2 ^ 31 then (x : Int) else (x : Int) - 2 ^ 32

/-- Conversion of a signed integer to `uint32_t` (reduction modulo `2^32`). -/
def ofInt (z : Int) : Nat := (z % 2 ^ 32).toNat

/-- Two's-complement wrap-around of an integer into the range of `int32_t`. -/
def wrapInt32 (z : Int) : Int := toInt32 (ofInt z)

/-- The cast `(int32_t) x >> s`: arithmetic right shift, stored back as `uint32_t`. -/
def sra32 (x s : Nat) : Nat := ofInt (toInt32 x / 2 ^ s)

/-! ## Data model -/

/-- The decoded instruction record `struct Instruction`. -/
structure Instruction where
  opcode : Nat
  rs : Nat
  rt : Nat
  rd : Nat
  shamt : Nat
  funct : Nat
  imm : Nat
  addr : Nat
  deriving DecidableEq, Repr

/-- Modelled from the spec: the architectural state record `CPU_State` declared in
`shell.h` (program counter, 32 general-purpose registers, `HI`, `LO`, all
unsigned 32-bit).  The register file is a map from register index to word. -/
structure CPU_State where
  PC : Nat
  REGS : Nat → Nat
  HI : Nat
  LO : Nat

/-- The memory collaborator: `mem_read_32` and `mem_write_32` of `shell.h`,
taken as parameters over an abstract store `M`. -/
structure MemOps (M : Type) where
  mem_read_32 : M → Nat → Nat
  mem_write_32 : M → Nat → Nat → M

/-- The globals the executor works on: `CURRENT_STATE`, `NEXT_STATE`, the run
flag `RUN_BIT` (true = keep running) and the memory behind the collaborator. -/
structure Machine (M : Type) where
  CURRENT_STATE : CPU_State
  NEXT_STATE : CPU_State
  RUN_BIT : Bool
  mem : M

/-- Every field of an architectural state is a 32-bit word. -/
def CPU_State.WF (s : CPU_State) : Prop :=
  s.PC < 2 ^ 32 ∧ (∀ k, s.REGS k < 2 ^ 32) ∧ s.HI < 2 ^ 32 ∧ s.LO < 2 ^ 32

namespace Machine

variable {M : Type}

/-- The assignment `NEXT_STATE.REGS[r] = v`. -/
def setReg (s : Machine M) (r v : Nat) : Machine M :=
  { s with NEXT_STATE :=
      { s.NEXT_STATE with REGS := fun k => if k = r then v else s.NEXT_STATE.REGS k } }

/-- The assignment `NEXT_STATE.PC = v`. -/
def setPC (s : Machine M) (v : Nat) : Machine M :=
  { s with NEXT_STATE := { s.NEXT_STATE with PC := v } }

/-- The assignment `NEXT_STATE.HI = v`. -/
def setHI (s : Machine M) (v : Nat) : Machine M :=
  { s with NEXT_STATE := { s.NEXT_STATE with HI := v } }

/-- The assignment `NEXT_STATE.LO = v`. -/
def setLO (s : Machine M) (v : Nat) : Machine M :=
  { s with NEXT_STATE := { s.NEXT_STATE with LO := v } }

/-- The assignment `RUN_BIT = 0`. -/
def halt (s : Machine M) : Machine M :=
  { s with RUN_BIT := false }

/-- The call `mem_write_32(a, v)`. -/
def store (ops : MemOps M) (s : Machine M) (a v : Nat) : Machine M :=
  { s with mem := ops.mem_write_32 s.mem a v }

/-- The call `mem_read_32(a)`, returning a `uint32_t`. -/
def load (ops : MemOps M) (s : Machine M) (a : Nat) : Nat :=
  u32 (ops.mem_read_32 s.mem a)

end Machine

/-! ## Decoder -/

/-- `decode`: bit-slices a 32-bit instruction word into its fields. -/
def decode (instruction : Nat) : Instruction :=
  { opcode := instruction >>> 26
    rs := (instruction >>> 21) &&& 0x1F
    rt := (instruction >>> 16) &&& 0x1F
    rd := (instruction >>> 11) &&& 0x1F
    shamt := (instruction >>> 6) &&& 0x1F
    funct := instruction &&& 0x3F
    imm := instruction &&& 0xFFFF
    addr := instruction &&& 0x3FFFFFF }

/-- `sign_extend`: widens a 16-bit immediate to 32 bits. -/
def sign_extend (imm : Nat) : Nat :=
  if imm &&& 0x8000 ≠ 0 then imm ||| 0xFFFF0000 else imm

/-! ## Executor -/

namespace Machine

variable {M : Type}

/-- The read `CURRENT_STATE.REGS[r]`. -/
def reg (s : Machine M) (r : Nat) : Nat := s.CURRENT_STATE.REGS r

/-- The assignment `NEXT_STATE.PC = CURRENT_STATE.PC + 4`. -/
def advance (s : Machine M) : Machine M := s.setPC (u32 (s.CURRENT_STATE.PC + 4))

/-- The assignment `NEXT_STATE.PC = CURRENT_STATE.PC + 4 + (sign_extend(imm) << 2)`. -/
def branch (s : Machine M) (imm : Nat) : Machine M :=
  s.setPC (u32 (s.CURRENT_STATE.PC + 4 + u32 (sign_extend imm <<< 2)))

/-- The effective address `CURRENT_STATE.REGS[rs] + sign_extend(imm)` of loads and stores. -/
def ea (s : Machine M) (i : Instruction) : Nat := u32 (s.reg i.rs + sign_extend i.imm)

end Machine

/-- `execute`: the dispatch on opcode, then on funct (opcode 0) or rt (opcode 1).
Reads `CURRENT_STATE`, writes `NEXT_STATE`, `RUN_BIT` and memory.  The `printf`
diagnostic of the default cases has no effect on the state and is omitted.
`mult` multiplies two `int32_t` operands in 32-bit arithmetic (wrapping) before
widening; `slti` compares an `int32_t` with a `uint32_t`, which C performs
unsigned; `div`/`divu` have no result when the C division is undefined. -/
def execute {M : Type} (ops : MemOps M) (i : Instruction) (s : Machine M) : Option (Machine M) :=
  match i.opcode with
  | 0x00 =>
    match i.funct with
    | 0x00 => some ((s.setReg i.rd (u32 (s.reg i.rt <<< i.shamt))).advance)
    | 0x02 => some ((s.setReg i.rd (s.reg i.rt >>> i.shamt)).advance)
    | 0x03 => some ((s.setReg i.rd (sra32 (s.reg i.rt) i.shamt)).advance)
    | 0x04 => some (s.setReg i.rd (u32 (s.reg i.rt <<< (s.reg i.rs &&& 0x1F))))
    | 0x06 => some ((s.setReg i.rd (s.reg i.rt >>> (s.reg i.rs &&& 0x1F))).advance)
    | 0x07 => some ((s.setReg i.rd (sra32 (s.reg i.rt) (s.reg i.rs &&& 0x1F))).advance)
    | 0x08 => some (s.setPC (s.reg i.rs))
    | 0x09 =>
      some ((s.setReg i.rd (u32 (s.CURRENT_STATE.PC + 4))).setPC (s.reg i.rs))
    | 0x0C =>
      if s.reg 2 = 0x0A then some s.halt else some s
    | 0x10 => some ((s.setReg i.rd s.CURRENT_STATE.HI).advance)
    | 0x11 => some ((s.setHI (s.reg i.rs)).advance)
    | 0x12 => some ((s.setReg i.rd s.CURRENT_STATE.LO).advance)
    | 0x13 => some ((s.setLO (s.reg i.rs)).advance)
    | 0x18 =>
      some (((s.setLO (ofInt (wrapInt32 (toInt32 (s.reg i.rs) * toInt32 (s.reg i.rt))))).setHI
        (ofInt (wrapInt32 (toInt32 (s.reg i.rs) * toInt32 (s.reg i.rt)) / 2 ^ 32))).advance)
    | 0x19 =>
      some (((s.setLO (u32 ((s.reg i.rs * s.reg i.rt) % 2 ^ 64))).setHI
        (u32 (((s.reg i.rs * s.reg i.rt) % 2 ^ 64) >>> 32))).advance)
    | 0x1A =>
      if toInt32 (s.reg i.rt) = 0 ∨ (toInt32 (s.reg i.rs) = -2 ^ 31 ∧ toInt32 (s.reg i.rt) = -1) then none
      else some (((s.setLO (ofInt (Int.tdiv (toInt32 (s.reg i.rs)) (toInt32 (s.reg i.rt))))).setHI
        (ofInt (Int.tmod (toInt32 (s.reg i.rs)) (toInt32 (s.reg i.rt))))).advance)
    | 0x1B =>
      if s.reg i.rt = 0 then none
      else some (((s.setLO (s.reg i.rs / s.reg i.rt)).setHI (s.reg i.rs % s.reg i.rt)).advance)
    | 0x20 => some ((s.setReg i.rd (u32 (s.reg i.rs + s.reg i.rt))).advance)
    | 0x21 => some ((s.setReg i.rd (u32 (s.reg i.rs + s.reg i.rt))).advance)
    | 0x22 =>
      some ((s.setReg i.rd (ofInt ((s.reg i.rs : Int) - (s.reg i.rt : Int)))).advance)
    | 0x23 =>
      some ((s.setReg i.rd (ofInt ((s.reg i.rs : Int) - (s.reg i.rt : Int)))).advance)
    | 0x24 => some ((s.setReg i.rd (s.reg i.rs &&& s.reg i.rt)).advance)
    | 0x25 => some ((s.setReg i.rd (s.reg i.rs ||| s.reg i.rt)).advance)
    | 0x26 => some ((s.setReg i.rd (s.reg i.rs ^^^ s.reg i.rt)).advance)
    | 0x27 =>
      some ((s.setReg i.rd (0xFFFFFFFF ^^^ (s.reg i.rs ||| s.reg i.rt))).advance)
    | 0x2A =>
      some ((s.setReg i.rd (if toInt32 (s.reg i.rs) < toInt32 (s.reg i.rt) then 1 else 0)).advance)
    | 0x2B =>
      some ((s.setReg i.rd (if s.reg i.rs < s.reg i.rt then 1 else 0)).advance)
    | _ => some s.halt
  | 0x01 =>
    match i.rt with
    | 0x00 =>
      if toInt32 (s.reg i.rs) < 0 then some (s.branch i.imm) else some s.advance
    | 0x01 =>
      if toInt32 (s.reg i.rs) ≥ 0 then some (s.branch i.imm) else some s.advance
    | 0x10 =>
      if toInt32 (s.reg i.rs) < 0 then
        some ((s.setReg 31 (u32 (s.CURRENT_STATE.PC + 4))).branch i.imm)
      else some s.advance
    | 0x11 =>
      if toInt32 (s.reg i.rs) ≥ 0 then
        some ((s.setReg 31 (u32 (s.CURRENT_STATE.PC + 4))).branch i.imm)
      else some s.advance
    | _ => some s.halt
  | 0x02 =>
    some (s.setPC ((s.CURRENT_STATE.PC &&& 0xF0000000) ||| u32 (i.addr <<< 2)))
  | 0x03 =>
    some ((s.setReg 31 (u32 (s.CURRENT_STATE.PC + 4))).setPC
      ((s.CURRENT_STATE.PC &&& 0xF0000000) ||| u32 (i.addr <<< 2)))
  | 0x04 =>
    if s.reg i.rs = s.reg i.rt then some (s.branch i.imm) else some s.advance
  | 0x05 =>
    if s.reg i.rs ≠ s.reg i.rt then some (s.branch i.imm) else some s.advance
  | 0x06 =>
    if toInt32 (s.reg i.rs) ≤ 0 then some (s.branch i.imm) else some s.advance
  | 0x07 =>
    if toInt32 (s.reg i.rs) > 0 then some (s.branch i.imm) else some s.advance
  | 0x08 =>
    some ((s.setReg i.rt (u32 (s.reg i.rs + sign_extend i.imm))).advance)
  | 0x09 =>
    some ((s.setReg i.rt (u32 (s.reg i.rs + sign_extend i.imm))).advance)
  | 0x0A =>
    some ((s.setReg i.rt (if ofInt (toInt32 (s.reg i.rs)) < sign_extend i.imm then 1 else 0)).advance)
  | 0x0B =>
    some ((s.setReg i.rt (if s.reg i.rs < sign_extend i.imm then 1 else 0)).advance)
  | 0x0C => some ((s.setReg i.rt (s.reg i.rs &&& i.imm)).advance)
  | 0x0D => some ((s.setReg i.rt (s.reg i.rs ||| i.imm)).advance)
  | 0x0E => some ((s.setReg i.rt (s.reg i.rs ^^^ i.imm)).advance)
  | 0x0F => some ((s.setReg i.rt (u32 (i.imm <<< 16))).advance)
  | 0x20 =>
    if (s.load ops (s.ea i) &&& 0xFF) &&& 0x80 ≠ 0 then
      some ((s.setReg i.rt ((s.load ops (s.ea i) &&& 0xFF) ||| 0xFFFFFF00)).advance)
    else some ((s.setReg i.rt (s.load ops (s.ea i) &&& 0xFF)).advance)
  | 0x21 =>
    if (s.load ops (s.ea i) &&& 0xFFFF) &&& 0x8000 ≠ 0 then
      some ((s.setReg i.rt ((s.load ops (s.ea i) &&& 0xFFFF) ||| 0xFFFF0000)).advance)
    else some ((s.setReg i.rt (s.load ops (s.ea i) &&& 0xFFFF)).advance)
  | 0x23 => some ((s.setReg i.rt (s.load ops (s.ea i))).advance)
  | 0x24 => some ((s.setReg i.rt (s.load ops (s.ea i) &&& 0xFF)).advance)
  | 0x25 => some ((s.setReg i.rt (s.load ops (s.ea i) &&& 0xFFFF)).advance)
  | 0x28 =>
    some ((s.store ops (s.ea i) ((s.reg i.rt &&& 0xFF) ||| (s.load ops (s.ea i) &&& 0xFFFFFF00))).advance)
  | 0x29 =>
    some ((s.store ops (s.ea i) ((s.reg i.rt &&& 0xFFFF) ||| (s.load ops (s.ea i) &&& 0xFFFF0000))).advance)
  | 0x2B => some ((s.store ops (s.ea i) (s.reg i.rt)).advance)
  | _ => some s.halt

/-- `process_instruction`: fetch the word at `CURRENT_STATE.PC`, decode, execute. -/
def process_instruction {M : Type} (ops : MemOps M) (s : Machine M) : Option (Machine M) :=
  execute ops (decode (s.load ops s.CURRENT_STATE.PC)) s

/-- Modelled from the spec: the driver's commit of `next` over `current` once a
step has run (the driver lives in the shell, outside the source).  `NEXT_STATE`
is kept, so it is again a copy of `CURRENT_STATE` when the following step starts. -/
def commit {M : Type} (s : Machine M) : Machine M :=
  { s with CURRENT_STATE := s.NEXT_STATE }

/-! ## A concrete memory and concrete states for evaluation -/

/-- A word store in which a read returns the last word written to the address. -/
def wordMem : MemOps (Nat → Nat) where
  mem_read_32 := fun m a => m a
  mem_write_32 := fun m a v => fun b => if b = a then v else m b

/-- The state with program counter `pc`, registers `regs`, and `HI = LO = 0`. -/
def mkState (pc : Nat) (regs : Nat → Nat) : CPU_State :=
  { PC := pc, REGS := regs, HI := 0, LO := 0 }

/-- A machine about to step: `NEXT_STATE` is a copy of `CURRENT_STATE`, the run
flag is set and memory is all zero. -/
def boot (cur : CPU_State) : Machine (Nat → Nat) :=
  { CURRENT_STATE := cur, NEXT_STATE := cur, RUN_BIT := true, mem := fun _ => 0 }

/-- A machine about to step over a given memory: `NEXT_STATE` is a copy of
`CURRENT_STATE` and the run flag is set. -/
def bootMem (cur : CPU_State) (mem : Nat → Nat) : Machine (Nat → Nat) :=
  { CURRENT_STATE := cur, NEXT_STATE := cur, RUN_BIT := true, mem := mem }

/-! ## Specification-side vocabulary -/

/-- A word read returns the last word written to the same address. -/
def MemOps.ReadsLastWrite {M : Type} (ops : MemOps M) : Prop :=
  ∀ m a v, ops.mem_read_32 (ops.mem_write_32 m a v) a = v

/-- A word write leaves the words at every other address unchanged. -/
def MemOps.WritesOnlyAt {M : Type} (ops : MemOps M) : Prop :=
  ∀ m a v b, b ≠ a → ops.mem_read_32 (ops.mem_write_32 m a v) b = ops.mem_read_32 m b


/-- The C division of `div`/`divu` is undefined: `divu` by zero, `div` by zero,
or `div` of `INT_MIN` by `-1`. -/
def divUndefined (i : Instruction) (cur : CPU_State) : Prop :=
  i.opcode = 0x00 ∧
    ((i.funct = 0x1A ∧ (toInt32 (cur.REGS i.rt) = 0 ∨
        (toInt32 (cur.REGS i.rs) = -2 ^ 31 ∧ toInt32 (cur.REGS i.rt) = -1))) ∨
     (i.funct = 0x1B ∧ cur.REGS i.rt = 0))

instance (i : Instruction) (cur : CPU_State) : Decidable (divUndefined i cur) := by
  unfold divUndefined; infer_instance

/-- The destination register the spec's frame rule assigns to an instruction:
`rd` for the register-writing R-type functs, `rt` for opcodes 0x08-0x0F and the
loads, 31 for `jal` and a taken `bltzal`/`bgezal`, none otherwise. -/
def destReg (i : Instruction) (cur : CPU_State) : Option Nat :=
  if i.opcode = 0x00 then
    if i.funct ∈ [0x00, 0x02, 0x03, 0x04, 0x06, 0x07, 0x09, 0x10, 0x12,
        0x20, 0x21, 0x22, 0x23, 0x24, 0x25, 0x26, 0x27, 0x2A, 0x2B] then some i.rd
    else none
  else if i.opcode ∈ [0x08, 0x09, 0x0A, 0x0B, 0x0C, 0x0D, 0x0E, 0x0F,
      0x20, 0x21, 0x23, 0x24, 0x25] then some i.rt
  else if i.opcode = 0x03 then some 31
  else if i.opcode = 0x01 ∧ i.rt = 0x10 ∧ toInt32 (cur.REGS i.rs) < 0 then some 31
  else if i.opcode = 0x01 ∧ i.rt = 0x11 ∧ 0 ≤ toInt32 (cur.REGS i.rs) then some 31
  else none

/-- The instructions the spec allows to change `HI`: mthi, mult, multu, div, divu. -/
def writesHI (i : Instruction) : Prop :=
  i.opcode = 0x00 ∧ i.funct ∈ [0x11, 0x18, 0x19, 0x1A, 0x1B]

instance (i : Instruction) : Decidable (writesHI i) := by
  unfold writesHI; infer_instance

/-- The instructions the spec allows to change `LO`: mtlo, mult, multu, div, divu. -/
def writesLO (i : Instruction) : Prop :=
  i.opcode = 0x00 ∧ i.funct ∈ [0x13, 0x18, 0x19, 0x1A, 0x1B]

instance (i : Instruction) : Decidable (writesLO i) := by
  unfold writesLO; infer_instance

/-- The signed reading of a 16-bit value. -/
def toInt16 (v : Nat) : Int := if v < 2 ^ 15 then (v : Int) else (v : Int) - 2 ^ 16

/-- The branch target of the spec: `PC + 4 + (sign_extend16(imm) << 2)`, modulo `2^32`. -/
def branchTarget (pc imm : Nat) : Nat := (pc + 4 + sign_extend imm * 4) % 2 ^ 32

/-- The fall-through address of the spec: `PC + 4`, modulo `2^32`. -/
def fallThrough (pc : Nat) : Nat := (pc + 4) % 2 ^ 32

/-- The taken-condition of a conditional branch, per the spec's tables, read on
the current state: beq, bne, blez, bgtz, bltz/bltzal, bgez/bgezal.  Words that
are not conditional branches have none. -/
def branchCond (i : Instruction) (cur : CPU_State) : Option Bool :=
  if i.opcode = 0x04 then some (decide (cur.REGS i.rs = cur.REGS i.rt))
  else if i.opcode = 0x05 then some (decide (cur.REGS i.rs ≠ cur.REGS i.rt))
  else if i.opcode = 0x06 then some (decide (toInt32 (cur.REGS i.rs) ≤ 0))
  else if i.opcode = 0x07 then some (decide (0 < toInt32 (cur.REGS i.rs)))
  else if i.opcode = 0x01 ∧ (i.rt = 0x00 ∨ i.rt = 0x10) then
    some (decide (toInt32 (cur.REGS i.rs) < 0))
  else if i.opcode = 0x01 ∧ (i.rt = 0x01 ∨ i.rt = 0x11) then
    some (decide (0 ≤ toInt32 (cur.REGS i.rs)))
  else none

/-- The instruction words the spec's tables recognise: the R-type functs, the
REGIMM `rt` codes and the opcode-direct instructions. -/
def recognised (i : Instruction) : Prop :=
  (i.opcode = 0x00 ∧ i.funct ∈ [0x00, 0x02, 0x03, 0x04, 0x06, 0x07, 0x08, 0x09, 0x0C,
      0x10, 0x11, 0x12, 0x13, 0x18, 0x19, 0x1A, 0x1B,
      0x20, 0x21, 0x22, 0x23, 0x24, 0x25, 0x26, 0x27, 0x2A, 0x2B]) ∨
  (i.opcode = 0x01 ∧ i.rt ∈ [0x00, 0x01, 0x10, 0x11]) ∨
  i.opcode ∈ [0x02, 0x03, 0x04, 0x05, 0x06, 0x07, 0x08, 0x09, 0x0A, 0x0B, 0x0C, 0x0D,
      0x0E, 0x0F, 0x20, 0x21, 0x23, 0x24, 0x25, 0x28, 0x29, 0x2B]

instance (i : Instruction) : Decidable (recognised i) := by
  unfold recognised; infer_instance

/-- The two situations in which the spec has the run flag cleared: a `syscall`
with `regs[2] = 0x0A`, or an unrecognised instruction word. -/
def clearsRun (i : Instruction) (cur : CPU_State) : Prop :=
  (i.opcode = 0x00 ∧ i.funct = 0x0C ∧ cur.REGS 2 = 0x0A) ∨ ¬ recognised i

instance (i : Instruction) (cur : CPU_State) : Decidable (clearsRun i cur) := by
  unfold clearsRun; infer_instance

/-! ## Word-level lemmas -/

theorem and_0x8000_ne_zero_iff (v : Nat) : v &&& 0x8000 ≠ 0 ↔ v / 2 ^ 15 % 2 = 1 := by
  have h : (0x8000 : Nat) = 2 ^ 15 := by norm_num
  rw [h, Nat.and_two_pow, Nat.testBit_to_div_mod]
  by_cases hb : v / 2 ^ 15 % 2 = 1 <;> simp [hb]

theorem or_0xFFFF0000 (v : Nat) (hv : v < 2 ^ 16) : v ||| 0xFFFF0000 = v + 0xFFFF0000 := by
  have h : (0xFFFF0000 : Nat) = 2 ^ 16 * 0xFFFF := by norm_num
  rw [Nat.or_comm, h, ← Nat.mul_add_lt_is_or hv, Nat.add_comm]

theorem and_mask5 (x : Nat) : x &&& 0x1F = x % 2 ^ 5 := Nat.and_pow_two_sub_one_eq_mod x 5

theorem and_mask6 (x : Nat) : x &&& 0x3F = x % 2 ^ 6 := Nat.and_pow_two_sub_one_eq_mod x 6

theorem and_mask16 (x : Nat) : x &&& 0xFFFF = x % 2 ^ 16 := Nat.and_pow_two_sub_one_eq_mod x 16

theorem and_mask26 (x : Nat) : x &&& 0x3FFFFFF = x % 2 ^ 26 := Nat.and_pow_two_sub_one_eq_mod x 26

theorem toInt32_range (x : Nat) (hx : x < 2 ^ 32) : -2 ^ 31 ≤ toInt32 x ∧ toInt32 x < 2 ^ 31 := by
  unfold toInt32
  split <;> omega

theorem toInt32_ofInt (z : Int) (hz : -2 ^ 31 ≤ z ∧ z < 2 ^ 31) : toInt32 (ofInt z) = z := by
  unfold toInt32 ofInt
  split <;> omega

theorem toInt32_eq_zero_iff (x : Nat) (hx : x < 2 ^ 32) : toInt32 x = 0 ↔ x = 0 := by
  unfold toInt32
  split <;> omega

theorem toInt32_eq_min_iff (x : Nat) (hx : x < 2 ^ 32) :
    toInt32 x = -2 ^ 31 ↔ x = 0x80000000 := by
  unfold toInt32
  split <;> omega

theorem toInt32_eq_neg_one_iff (x : Nat) (hx : x < 2 ^ 32) :
    toInt32 x = -1 ↔ x = 0xFFFFFFFF := by
  unfold toInt32
  split <;> omega

theorem neg_tmod_eq (x y : Int) : (-x).tmod y = -(x.tmod y) := by
  rw [Int.tmod_def, Int.tmod_def, Int.neg_tdiv]
  ring

/-- The remainder of C's truncating division is smaller in magnitude than the divisor. -/
theorem natAbs_tmod_lt (a b : Int) (hb : b ≠ 0) : (a.tmod b).natAbs < b.natAbs := by
  have key : ∀ x y : Int, 0 ≤ x → 0 < y → (x.tmod y).natAbs < y.natAbs := by
    intro x y hx hy
    have h1 := Int.tmod_nonneg y hx
    have h2 := Int.tmod_lt_of_pos x hy
    omega
  rcases Int.le_total 0 a with ha | ha <;> rcases Int.lt_or_gt_of_ne hb with hb' | hb'
  · have := key a (-b) ha (by omega)
    rw [Int.tmod_neg] at this
    omega
  · exact key a b ha hb'
  · have := key (-a) (-b) (by omega) (by omega)
    rw [Int.tmod_neg, neg_tmod_eq] at this
    omega
  · have := key (-a) b (by omega) hb'
    rw [neg_tmod_eq] at this
    omega

/-- The remainder of C's truncating division takes the sign of the dividend. -/
theorem tmod_sign (a b : Int) : (0 ≤ a → 0 ≤ a.tmod b) ∧ (a ≤ 0 → a.tmod b ≤ 0) := by
  refine ⟨fun h => Int.tmod_nonneg b h, fun h => ?_⟩
  have := Int.tmod_nonneg b (show 0 ≤ -a by omega)
  rw [neg_tmod_eq] at this
  omega

/-- Outside `INT_MIN / -1` the truncated quotient of two `int32_t` values is an `int32_t`. -/
theorem tdiv_range (a b : Int) (ha : -2 ^ 31 ≤ a ∧ a < 2 ^ 31)
    (hov : ¬ (a = -2 ^ 31 ∧ b = -1)) : -2 ^ 31 ≤ a.tdiv b ∧ a.tdiv b < 2 ^ 31 := by
  have hq : (a.tdiv b).natAbs = a.natAbs / b.natAbs := Int.natAbs_tdiv a b
  by_cases h1 : b = 1
  · subst h1; simp; omega
  by_cases h2 : b = -1
  · subst h2
    have : a.tdiv (-1) = -a := by rw [Int.tdiv_neg]; simp
    rw [this]; omega
  by_cases h0 : b = 0
  · subst h0; simp
  have hb2 : 2 ≤ b.natAbs := by omega
  have h3 : a.natAbs / b.natAbs ≤ a.natAbs / 2 := Nat.div_le_div_left hb2 (by norm_num)
  omega

theorem two_pow_split (s : Nat) (hs : s < 32) : 2 ^ s * 2 ^ (32 - s) = 2 ^ 32 := by
  rw [← Nat.pow_add]
  congr 1
  omega

theorem ediv_two_pow_nonneg (x s : Nat) : ((x : Int) / 2 ^ s) = ((x / 2 ^ s : Nat) : Int) := by
  push_cast; rfl

theorem ediv_two_pow_neg (x s : Nat) (hs : s < 32) :
    ((x : Int) - 2 ^ 32) / 2 ^ s = ((x / 2 ^ s : Nat) : Int) - ((2 ^ (32 - s) : Nat) : Int) := by
  have h32 : (2 : Int) ^ 32 = ((2 ^ (32 - s) : Nat) : Int) * 2 ^ s := by
    have := congrArg (fun n : Nat => (n : Int)) (two_pow_split s hs)
    push_cast at this ⊢
    rw [← this]; ring
  rw [h32, sub_eq_add_neg, ← neg_mul, Int.add_mul_ediv_right _ _ (by positivity)]
  push_cast
  ring

/-- Arithmetic form of the 32-bit arithmetic right shift, and its signed reading. -/
theorem sra32_spec (x s : Nat) (hx : x < 2 ^ 32) (hs : s < 32) :
    sra32 x s = x / 2 ^ s + (if x < 2 ^ 31 then 0 else 2 ^ 32 - 2 ^ (32 - s)) ∧
    toInt32 (sra32 x s) = Int.fdiv (toInt32 x) (2 ^ s) := by
  have hPQ := two_pow_split s hs
  have hq : x / 2 ^ s < 2 ^ (32 - s) := Nat.div_lt_of_lt_mul (by rw [hPQ]; exact hx)
  have hQle : 2 ^ (32 - s) ≤ 2 ^ 32 := Nat.pow_le_pow_right (by norm_num) (by omega)
  have hle : x / 2 ^ s ≤ x := Nat.div_le_self _ _
  have hQ2 : 2 * 2 ^ (31 - s) = 2 ^ (32 - s) := by
    rw [← Nat.pow_succ']
    congr 1
    omega
  have hhalf : 2 ^ 31 ≤ x → 2 ^ (31 - s) ≤ x / 2 ^ s := by
    intro h
    rw [Nat.le_div_iff_mul_le (Nat.two_pow_pos s), ← Nat.pow_add]
    have : 31 - s + s = 31 := by omega
    rw [this]; exact h
  rw [Int.fdiv_eq_ediv _ (by positivity)]
  have e1 := ediv_two_pow_nonneg x s
  have e2 := ediv_two_pow_neg x s hs
  unfold sra32 toInt32 ofInt
  by_cases hx31 : x < 2 ^ 31
  · simp only [if_pos hx31]
    rw [e1]
    generalize x / 2 ^ s = q at hq hle ⊢
    constructor
    · omega
    · split <;> omega
  · simp only [if_neg hx31]
    have hh := hhalf (by omega)
    rw [e2]
    generalize x / 2 ^ s = q at hq hle hh ⊢
    generalize 2 ^ (32 - s) = Q at hq hQle hQ2 ⊢
    generalize 2 ^ (31 - s) = H at hQ2 hh
    constructor
    · omega
    · split <;> omega

theorem and_0x1F_lt (x : Nat) : x &&& 0x1F < 32 := by
  rw [and_mask5]
  exact Nat.mod_lt _ (by norm_num)

theorem testBit_0xFF (j : Nat) : Nat.testBit 0xFF j = decide (j < 8) := by
  have h : (0xFF : Nat) = 2 ^ 8 - 1 := by norm_num
  rw [h, Nat.testBit_two_pow_sub_one]

theorem testBit_0xFFFF (j : Nat) : Nat.testBit 0xFFFF j = decide (j < 16) := by
  have h : (0xFFFF : Nat) = 2 ^ 16 - 1 := by norm_num
  rw [h, Nat.testBit_two_pow_sub_one]

theorem testBit_0xFFFFFF00 (j : Nat) :
    Nat.testBit 0xFFFFFF00 j = (decide (8 ≤ j) && decide (j < 32)) := by
  have h : (0xFFFFFF00 : Nat) = (2 ^ 24 - 1) <<< 8 := by decide
  rw [h, Nat.testBit_shiftLeft, Nat.testBit_two_pow_sub_one]
  by_cases h8 : 8 ≤ j <;> by_cases h32 : j < 32 <;> simp [h8, h32] <;> omega

theorem testBit_0xFFFF0000 (j : Nat) :
    Nat.testBit 0xFFFF0000 j = (decide (16 ≤ j) && decide (j < 32)) := by
  have h : (0xFFFF0000 : Nat) = (2 ^ 16 - 1) <<< 16 := by decide
  rw [h, Nat.testBit_shiftLeft, Nat.testBit_two_pow_sub_one]
  by_cases h8 : 16 ≤ j <;> by_cases h32 : j < 32 <;> simp [h8, h32] <;> omega

/-- Merging the low byte of `v` into `old` keeps the byte in the low lane. -/
theorem merge_byte_low (v old : Nat) :
    ((v &&& 0xFF) ||| (old &&& 0xFFFFFF00)) % 2 ^ 32 &&& 0xFF = v &&& 0xFF := by
  apply Nat.eq_of_testBit_eq
  intro j
  simp only [Nat.testBit_and, Nat.testBit_or, Nat.testBit_mod_two_pow, testBit_0xFF,
    testBit_0xFFFFFF00]
  by_cases h8 : j < 8 <;> by_cases h8' : 8 ≤ j <;> by_cases h32 : j < 32 <;>
    first | omega | simp [h8, h8', h32]

theorem merge_byte_high (v old : Nat) :
    ((old &&& 0xFFFFFF00) ||| (v &&& 0xFF)) &&& 0xFFFFFF00 = old &&& 0xFFFFFF00 := by
  apply Nat.eq_of_testBit_eq
  intro j
  simp only [Nat.testBit_and, Nat.testBit_or, testBit_0xFF, testBit_0xFFFFFF00]
  by_cases h8 : j < 8 <;> by_cases h8' : 8 ≤ j <;> by_cases h32 : j < 32 <;>
    first | omega | simp [h8, h8', h32]

theorem merge_half_low (v old : Nat) :
    ((v &&& 0xFFFF) ||| (old &&& 0xFFFF0000)) % 2 ^ 32 &&& 0xFFFF = v &&& 0xFFFF := by
  apply Nat.eq_of_testBit_eq
  intro j
  simp only [Nat.testBit_and, Nat.testBit_or, Nat.testBit_mod_two_pow, testBit_0xFFFF,
    testBit_0xFFFF0000]
  by_cases h8 : j < 16 <;> by_cases h8' : 16 ≤ j <;> by_cases h32 : j < 32 <;>
    first | omega | simp [h8, h8', h32]

theorem merge_half_high (v old : Nat) :
    ((old &&& 0xFFFF0000) ||| (v &&& 0xFFFF)) &&& 0xFFFF0000 = old &&& 0xFFFF0000 := by
  apply Nat.eq_of_testBit_eq
  intro j
  simp only [Nat.testBit_and, Nat.testBit_or, testBit_0xFFFF, testBit_0xFFFF0000]
  by_cases h8 : j < 16 <;> by_cases h8' : 16 ≤ j <;> by_cases h32 : j < 32 <;>
    first | omega | simp [h8, h8', h32]

theorem mod_four_eq_and (x : Nat) : x % 4 = x &&& 3 :=
  (Nat.and_pow_two_sub_one_eq_mod x 2).symm

/-- The jump target `(pc & 0xF0000000) | (addr << 2)` is a multiple of 4. -/
theorem jump_target_aligned (pc addr : Nat) :
    ((pc &&& 0xF0000000) ||| u32 (addr <<< 2)) % 4 = 0 := by
  have h1 : (pc &&& 0xF0000000) &&& 3 = 0 := by
    rw [Nat.and_assoc]
    exact Nat.and_zero pc
  have h2 : u32 (addr <<< 2) &&& 3 = 0 := by
    rw [← mod_four_eq_and, u32, Nat.shiftLeft_eq]
    omega
  rw [mod_four_eq_and, Nat.and_comm, Nat.and_or_distrib_left, Nat.and_comm 3, Nat.and_comm 3,
    h1, h2]
  rfl

/-! ## Basic facts about the executor -/

section Basic

variable {M : Type}

@[simp] theorem setReg_CURRENT (s : Machine M) (r v : Nat) :
    (s.setReg r v).CURRENT_STATE = s.CURRENT_STATE := rfl

@[simp] theorem setReg_reg (s : Machine M) (r v k : Nat) :
    (s.setReg r v).reg k = s.reg k := rfl

/-- The step has no result exactly when its C division is undefined. -/
theorem execute_eq_none_iff (ops : MemOps M) (i : Instruction) (s : Machine M) :
    execute ops i s = none ↔ divUndefined i s.CURRENT_STATE := by
  unfold execute divUndefined
  split <;> (try split) <;> (try split) <;> simp_all [Machine.reg]

set_option maxHeartbeats 2000000 in
/-- Frame property of one step, for an arbitrary instruction record. -/
theorem frame_any_record (ops : MemOps M) (i : Instruction) (s s' : Machine M)
    (hcopy : s.NEXT_STATE = s.CURRENT_STATE) (h : execute ops i s = some s') :
    (∀ k, destReg i s.CURRENT_STATE ≠ some k →
        s'.NEXT_STATE.REGS k = s.CURRENT_STATE.REGS k) ∧
    (¬ writesHI i → s'.NEXT_STATE.HI = s.CURRENT_STATE.HI) ∧
    (¬ writesLO i → s'.NEXT_STATE.LO = s.CURRENT_STATE.LO) := by
  unfold execute at h
  split at h <;> (try split at h) <;> (try split at h) <;>
    simp only [Option.some.injEq, reduceCtorEq] at h <;> subst h <;>
    simp_all [destReg, writesHI, writesLO, Machine.setReg, Machine.advance, Machine.setPC,
      Machine.setHI, Machine.setLO, Machine.halt, Machine.store, Machine.branch, Machine.reg] <;>
    intro k hk <;> simp [Ne.symm hk]

theorem branch_PC (s : Machine M) (imm : Nat) :
    (s.branch imm).NEXT_STATE.PC = branchTarget s.CURRENT_STATE.PC imm := by
  simp only [Machine.branch, Machine.setPC, branchTarget, u32, Nat.shiftLeft_eq]
  omega

theorem advance_PC (s : Machine M) :
    s.advance.NEXT_STATE.PC = fallThrough s.CURRENT_STATE.PC := rfl

/-- Program counter after a conditional branch, for an arbitrary instruction record. -/
theorem cond_branch_any_record (ops : MemOps M) (i : Instruction) (s : Machine M) (c : Bool)
    (hc : branchCond i s.CURRENT_STATE = some c) :
    ∃ s', execute ops i s = some s' ∧
      s'.NEXT_STATE.PC =
        if c then branchTarget s.CURRENT_STATE.PC i.imm else fallThrough s.CURRENT_STATE.PC := by
  unfold branchCond at hc
  split_ifs at hc with h4 h5 h6 h7 h1a h1b <;> simp only [Option.some.injEq] at hc <;> subst hc
  · by_cases hb : s.CURRENT_STATE.REGS i.rs = s.CURRENT_STATE.REGS i.rt <;>
      simp [execute, h4, Machine.reg, hb, branch_PC, advance_PC]
  · by_cases hb : s.CURRENT_STATE.REGS i.rs = s.CURRENT_STATE.REGS i.rt <;>
      simp [execute, h5, Machine.reg, hb, branch_PC, advance_PC]
  · by_cases hb : toInt32 (s.CURRENT_STATE.REGS i.rs) ≤ 0 <;>
      simp [execute, h6, Machine.reg, hb, branch_PC, advance_PC]
  · by_cases hb : 0 < toInt32 (s.CURRENT_STATE.REGS i.rs) <;>
      simp [execute, h7, Machine.reg, hb, branch_PC, advance_PC]
  · obtain ⟨h1, hrt | hrt⟩ := h1a <;>
      by_cases hb : toInt32 (s.CURRENT_STATE.REGS i.rs) < 0 <;>
      simp [execute, h1, hrt, Machine.reg, hb, branch_PC, advance_PC]
  · obtain ⟨h1, hrt | hrt⟩ := h1b <;>
      by_cases hb : 0 ≤ toInt32 (s.CURRENT_STATE.REGS i.rs) <;>
      simp [execute, h1, hrt, Machine.reg, hb, branch_PC, advance_PC]

/-- Program counter and link register after `j`/`jal`, for an arbitrary record
whose `addr` field fits 26 bits. -/
theorem jump_any_record (ops : MemOps M) (i : Instruction) (s : Machine M)
    (hop : i.opcode = 0x02 ∨ i.opcode = 0x03) (haddr : i.addr < 2 ^ 26) :
    ∃ s', execute ops i s = some s' ∧
      s'.NEXT_STATE.PC = (s.CURRENT_STATE.PC &&& 0xF0000000) ||| (i.addr <<< 2) ∧
      (i.opcode = 0x03 → s'.NEXT_STATE.REGS 31 = (s.CURRENT_STATE.PC + 4) % 2 ^ 32) := by
  have hsh : u32 (i.addr <<< 2) = i.addr <<< 2 := by
    unfold u32
    rw [Nat.shiftLeft_eq]
    omega
  rcases hop with h | h
  · simp [execute, h, hsh, Machine.setPC]
  · simp [execute, h, hsh, Machine.setPC, Machine.setReg]
    rfl

theorem decode_addr_lt (w : Nat) : (decode w).addr < 2 ^ 26 := by
  show w &&& 0x3FFFFFF < 2 ^ 26
  rw [and_mask26]
  exact Nat.mod_lt _ (by norm_num)

set_option maxHeartbeats 2000000 in
/-- Run flag after one step, for an arbitrary instruction record: the step is
exactly `RUN_BIT = 0` when the spec has the flag cleared, and keeps the flag
otherwise. -/
theorem run_bit_any_record (ops : MemOps M) (i : Instruction) (s : Machine M) :
    (clearsRun i s.CURRENT_STATE → execute ops i s = some s.halt) ∧
    (¬ clearsRun i s.CURRENT_STATE →
      ∀ s', execute ops i s = some s' → s'.RUN_BIT = s.RUN_BIT) := by
  unfold execute
  split <;> (try split) <;> (try split) <;>
    simp_all [clearsRun, recognised, Machine.halt, Machine.advance, Machine.setPC,
      Machine.setReg, Machine.setHI, Machine.setLO, Machine.store, Machine.branch, Machine.reg]

/-- The product of two 32-bit words fits 64 bits. -/
theorem mul_lt_two_pow_64 (a b : Nat) (ha : a < 2 ^ 32) (hb : b < 2 ^ 32) : a * b < 2 ^ 64 := by
  have h : a * b < 2 ^ 32 * 2 ^ 32 := Nat.mul_lt_mul'' ha hb
  have e : (2 : Nat) ^ 32 * 2 ^ 32 = 2 ^ 64 := by norm_num
  omega

/-- Result of `multu`, for an arbitrary instruction record. -/
theorem multu_any_record (ops : MemOps M) (i : Instruction) (s : Machine M)
    (hop : i.opcode = 0x00) (hf : i.funct = 0x19) :
    execute ops i s = some (((s.setLO (u32 ((s.reg i.rs * s.reg i.rt) % 2 ^ 64))).setHI
        (u32 (((s.reg i.rs * s.reg i.rt) % 2 ^ 64) >>> 32))).advance) := by
  simp [execute, hop, hf]

/-- Result of `div` when the C division is defined, for an arbitrary record. -/
theorem div_any_record (ops : MemOps M) (i : Instruction) (s : Machine M)
    (hop : i.opcode = 0x00) (hf : i.funct = 0x1A)
    (hdef : ¬ (toInt32 (s.reg i.rt) = 0 ∨
      (toInt32 (s.reg i.rs) = -2 ^ 31 ∧ toInt32 (s.reg i.rt) = -1))) :
    execute ops i s =
      some (((s.setLO (ofInt (Int.tdiv (toInt32 (s.reg i.rs)) (toInt32 (s.reg i.rt))))).setHI
        (ofInt (Int.tmod (toInt32 (s.reg i.rs)) (toInt32 (s.reg i.rt))))).advance) := by
  simp only [execute, hop, hf]
  rw [if_neg hdef]

/-- Result of `divu` with a non-zero divisor, for an arbitrary record. -/
theorem divu_any_record (ops : MemOps M) (i : Instruction) (s : Machine M)
    (hop : i.opcode = 0x00) (hf : i.funct = 0x1B) (hnz : s.reg i.rt ≠ 0) :
    execute ops i s =
      some (((s.setLO (s.reg i.rs / s.reg i.rt)).setHI (s.reg i.rs % s.reg i.rt)).advance) := by
  simp only [execute, hop, hf]
  rw [if_neg hnz]

theorem decode_imm_lt (w : Nat) : (decode w).imm < 2 ^ 16 := by
  show w &&& 0xFFFF < 2 ^ 16
  rw [and_mask16]
  exact Nat.mod_lt _ (by norm_num)

theorem lui_any_record (ops : MemOps M) (i : Instruction) (s : Machine M)
    (hop : i.opcode = 0x0F) :
    execute ops i s = some ((s.setReg i.rt (u32 (i.imm <<< 16))).advance) := by
  simp only [execute, hop]

theorem ori_any_record (ops : MemOps M) (i : Instruction) (s : Machine M)
    (hop : i.opcode = 0x0D) :
    execute ops i s = some ((s.setReg i.rt (s.reg i.rs ||| i.imm)).advance) := by
  simp only [execute, hop]

theorem wordMem_readsLastWrite : wordMem.ReadsLastWrite := by
  intro m a v
  simp [wordMem]

theorem wordMem_writesOnlyAt : wordMem.WritesOnlyAt := by
  intro m a v b hb
  simp [wordMem, hb]

theorem sw_any_record (ops : MemOps M) (i : Instruction) (s : Machine M)
    (hop : i.opcode = 0x2B) :
    execute ops i s = some ((s.store ops (s.ea i) (s.reg i.rt)).advance) := by
  simp only [execute, hop]

theorem lw_any_record (ops : MemOps M) (i : Instruction) (s : Machine M)
    (hop : i.opcode = 0x23) :
    execute ops i s = some ((s.setReg i.rt (s.load ops (s.ea i))).advance) := by
  simp only [execute, hop]

theorem setReg_advance_REGS (s : Machine M) (r v : Nat) :
    (s.setReg r v).advance.NEXT_STATE.REGS r = v := by
  simp [Machine.advance, Machine.setPC, Machine.setReg]

/-- After a store step and the commit, the effective address of an instruction
with the same base register and offset is the address stored to (`next` having
started as a copy of `current`). -/
theorem ea_commit_store (ops : MemOps M) (s : Machine M) (a v : Nat) (i1 i2 : Instruction)
    (hcopy : s.NEXT_STATE = s.CURRENT_STATE) (hrs : i2.rs = i1.rs) (himm : i2.imm = i1.imm) :
    (commit ((s.store ops a v).advance)).ea i2 = s.ea i1 := by
  simp [commit, Machine.store, Machine.advance, Machine.setPC, Machine.ea, Machine.reg, hcopy,
    hrs, himm]

/-- After a store step and the commit, a load from the address stored to
returns the word written, over a memory that reads back the last write. -/
theorem load_commit_store (ops : MemOps M) (hmem : ops.ReadsLastWrite) (s : Machine M)
    (a v : Nat) : (commit ((s.store ops a v).advance)).load ops a = u32 v := by
  simp [commit, Machine.store, Machine.advance, Machine.setPC, Machine.load, hmem s.mem a v]

theorem sb_any_record (ops : MemOps M) (i : Instruction) (s : Machine M)
    (hop : i.opcode = 0x28) :
    execute ops i s = some ((s.store ops (s.ea i)
      ((s.reg i.rt &&& 0xFF) ||| (s.load ops (s.ea i) &&& 0xFFFFFF00))).advance) := by
  simp only [execute, hop]

theorem sh_any_record (ops : MemOps M) (i : Instruction) (s : Machine M)
    (hop : i.opcode = 0x29) :
    execute ops i s = some ((s.store ops (s.ea i)
      ((s.reg i.rt &&& 0xFFFF) ||| (s.load ops (s.ea i) &&& 0xFFFF0000))).advance) := by
  simp only [execute, hop]

theorem lh_any_record (ops : MemOps M) (i : Instruction) (s : Machine M)
    (hop : i.opcode = 0x21) :
    execute ops i s =
      some ((s.setReg i.rt (sign_extend (s.load ops (s.ea i) &&& 0xFFFF))).advance) := by
  simp only [execute, hop, sign_extend]
  split <;> rfl

theorem lbu_any_record (ops : MemOps M) (i : Instruction) (s : Machine M)
    (hop : i.opcode = 0x24) :
    execute ops i s = some ((s.setReg i.rt (s.load ops (s.ea i) &&& 0xFF)).advance) := by
  simp only [execute, hop]

theorem advance_aligned (s : Machine M) (hpc : s.CURRENT_STATE.PC % 4 = 0) :
    s.advance.NEXT_STATE.PC % 4 = 0 := by
  simp only [Machine.advance, Machine.setPC, u32]
  omega

theorem branch_aligned (s : Machine M) (imm : Nat) (hpc : s.CURRENT_STATE.PC % 4 = 0) :
    (s.branch imm).NEXT_STATE.PC % 4 = 0 := by
  simp only [Machine.branch, Machine.setPC, u32, Nat.shiftLeft_eq]
  omega

set_option maxHeartbeats 2000000 in
/-- Alignment of `next.PC` after one step, for an arbitrary instruction record. -/
theorem pc_any_record (ops : MemOps M) (i : Instruction) (s s' : Machine M)
    (hcopy : s.NEXT_STATE = s.CURRENT_STATE) (hpc : s.CURRENT_STATE.PC % 4 = 0)
    (h : execute ops i s = some s') :
    (¬ (i.opcode = 0x00 ∧ (i.funct = 0x08 ∨ i.funct = 0x09)) → s'.NEXT_STATE.PC % 4 = 0) ∧
    (i.opcode = 0x00 ∧ (i.funct = 0x08 ∨ i.funct = 0x09) →
      s'.NEXT_STATE.PC = s.CURRENT_STATE.REGS i.rs) := by
  have hadv : ∀ t : Machine M, t.CURRENT_STATE = s.CURRENT_STATE →
      t.advance.NEXT_STATE.PC % 4 = 0 := fun t ht => advance_aligned t (ht ▸ hpc)
  have hbr : ∀ (t : Machine M) (imm : Nat), t.CURRENT_STATE = s.CURRENT_STATE →
      (t.branch imm).NEXT_STATE.PC % 4 = 0 := fun t imm ht => branch_aligned t imm (ht ▸ hpc)
  have hj := jump_target_aligned s.CURRENT_STATE.PC i.addr
  have hnext : s.NEXT_STATE.PC % 4 = 0 := hcopy ▸ hpc
  unfold execute at h
  split at h <;> (try split at h) <;> (try split at h) <;>
    simp only [Option.some.injEq, reduceCtorEq] at h <;> subst h <;>
    first
    | (refine ⟨fun _ => hadv _ rfl, fun hc => ?_⟩; simp_all)
    | (refine ⟨fun _ => hbr _ _ rfl, fun hc => ?_⟩; simp_all)
    | (refine ⟨fun _ => hj, fun hc => ?_⟩; simp_all)
    | (refine ⟨fun _ => hnext, fun hc => ?_⟩; simp_all)
    | (refine ⟨fun hc => ?_, fun _ => rfl⟩; simp_all)

end Basic

/-! ## The claims -/

section Claims

variable {M : Type}

/-- C1 (the code departs from it): a recognised instruction that is neither a
branch, a jump nor a halting syscall should yield `next.PC = current.PC + 4`.
At `sllv $10,$9,$8` (word 0x01095004) with `PC = 0`, and at a non-halting
`syscall` (word 0x0000000C with `regs[2] = 0`), the step leaves `next.PC` at
`0`, the value copied from `current.PC`, instead of `4`. -/
theorem sllv_syscall_pc_not_advanced :
    ((decode 0x01095004).opcode = 0x00 ∧ (decode 0x01095004).funct = 0x04 ∧
      (execute wordMem (decode 0x01095004) (boot (mkState 0 (fun _ => 0)))).map
        (fun m => m.NEXT_STATE.PC) = some 0) ∧
    ((decode 0x0000000C).opcode = 0x00 ∧ (decode 0x0000000C).funct = 0x0C ∧
      (execute wordMem (decode 0x0000000C) (boot (mkState 0 (fun _ => 0)))).map
        (fun m => (m.NEXT_STATE.PC, m.RUN_BIT)) = some (0, true)) := by
  decide

/-- C2: when `next` starts as a copy of `current`, a step either has no result
because its C division is undefined, or yields a next state in which every
general-purpose register other than the instruction's destination register
equals the current one, `HI` is unchanged unless the instruction is mthi, mult,
multu, div or divu, and `LO` is unchanged unless it is mtlo, mult, multu, div
or divu. -/
theorem execute_frame (ops : MemOps M) (w : Nat) (s : Machine M)
    (hcopy : s.NEXT_STATE = s.CURRENT_STATE) :
    (execute ops (decode w) s = none ∧ divUndefined (decode w) s.CURRENT_STATE) ∨
    ∃ s', execute ops (decode w) s = some s' ∧
      (∀ k, destReg (decode w) s.CURRENT_STATE ≠ some k →
          s'.NEXT_STATE.REGS k = s.CURRENT_STATE.REGS k) ∧
      (¬ writesHI (decode w) → s'.NEXT_STATE.HI = s.CURRENT_STATE.HI) ∧
      (¬ writesLO (decode w) → s'.NEXT_STATE.LO = s.CURRENT_STATE.LO) := by
  cases h : execute ops (decode w) s with
  | none => exact Or.inl ⟨rfl, (execute_eq_none_iff ops _ s).1 h⟩
  | some s' => exact Or.inr ⟨s', rfl, frame_any_record ops _ s s' hcopy h⟩

/-- Witness for C2: `add $10,$8,$9` (word 0x01095020) with `regs[8] = 5`,
`regs[9] = 7` leaves register 8 at 5 and `HI` at 0. -/
theorem execute_frame_witness :
    ∃ s', execute wordMem (decode 0x01095020)
        (boot (mkState 0 (fun k => if k = 8 then 5 else if k = 9 then 7 else 0))) = some s' ∧
      s'.NEXT_STATE.REGS 8 = 5 ∧ s'.NEXT_STATE.HI = 0 := by
  rcases execute_frame wordMem 0x01095020
      (boot (mkState 0 (fun k => if k = 8 then 5 else if k = 9 then 7 else 0))) rfl with h | h
  · exact absurd h.2 (by decide)
  · obtain ⟨s', hs, hr, hh, _⟩ := h
    exact ⟨s', hs, hr 8 (by decide), hh (by decide)⟩

/-- C3 (the code departs from it): after `mult`, `HI:LO` should be the 64-bit
signed product.  At `mult $8,$9` (word 0x01090018) with
`regs[8] = regs[9] = 0x00010000` the product is `2^32`, so `HI = 1`, `LO = 0`
is expected; the step multiplies in 32-bit arithmetic before widening and
yields `HI = 0`, `LO = 0`. -/
theorem mult_high_word_lost :
    (decode 0x01090018).opcode = 0x00 ∧ (decode 0x01090018).funct = 0x18 ∧
    (decode 0x01090018).rs = 8 ∧ (decode 0x01090018).rt = 9 ∧
    (execute wordMem (decode 0x01090018) (boot (mkState 0 (fun _ => 0x00010000)))).map
      (fun m => (m.NEXT_STATE.HI, m.NEXT_STATE.LO)) = some (0, 0) := by
  decide

/-- C4 (the code departs from it): `slti` should compare signed.  At
`slti $2,$1,0` (word 0x28220000) with `regs[1] = 0xFFFFFFFF` (signed `-1 < 0`)
the step writes `0` to `regs[2]`, and at `slti $2,$1,-1` (word 0x2822FFFF) with
`regs[1] = 0` (signed `0 < -1` is false) it writes `1`: the comparison is
carried out unsigned. -/
theorem slti_compares_unsigned :
    ((decode 0x28220000).opcode = 0x0A ∧ (decode 0x28220000).rs = 1 ∧
      (decode 0x28220000).rt = 2 ∧ (decode 0x28220000).imm = 0 ∧
      (execute wordMem (decode 0x28220000) (boot (mkState 0 (fun _ => 0xFFFFFFFF)))).map
        (fun m => m.NEXT_STATE.REGS 2) = some 0) ∧
    ((decode 0x2822FFFF).opcode = 0x0A ∧ (decode 0x2822FFFF).imm = 0xFFFF ∧
      (execute wordMem (decode 0x2822FFFF) (boot (mkState 0 (fun _ => 0)))).map
        (fun m => m.NEXT_STATE.REGS 2) = some 1) := by
  decide

/-- C5: for every 32-bit word `w`, `decode w` holds the eight bit-fields
`opcode = w[31:26]`, `rs = w[25:21]`, `rt = w[20:16]`, `rd = w[15:11]`,
`shamt = w[10:6]`, `funct = w[5:0]`, `imm = w[15:0]`, `addr = w[25:0]`, each
within its width. -/
theorem decode_fields (w : Nat) (hw : w < 2 ^ 32) :
    decode w =
      { opcode := w / 2 ^ 26 % 2 ^ 6, rs := w / 2 ^ 21 % 2 ^ 5, rt := w / 2 ^ 16 % 2 ^ 5,
        rd := w / 2 ^ 11 % 2 ^ 5, shamt := w / 2 ^ 6 % 2 ^ 5, funct := w % 2 ^ 6,
        imm := w % 2 ^ 16, addr := w % 2 ^ 26 } ∧
    (decode w).opcode < 64 ∧ (decode w).funct < 64 ∧ (decode w).rs < 32 ∧
    (decode w).rt < 32 ∧ (decode w).rd < 32 ∧ (decode w).shamt < 32 ∧
    (decode w).imm < 2 ^ 16 ∧ (decode w).addr < 2 ^ 26 := by
  have hop : w >>> 26 = w / 2 ^ 26 % 2 ^ 6 := by
    rw [Nat.shiftRight_eq_div_pow]; omega
  have hd : decode w =
      { opcode := w / 2 ^ 26 % 2 ^ 6, rs := w / 2 ^ 21 % 2 ^ 5, rt := w / 2 ^ 16 % 2 ^ 5,
        rd := w / 2 ^ 11 % 2 ^ 5, shamt := w / 2 ^ 6 % 2 ^ 5, funct := w % 2 ^ 6,
        imm := w % 2 ^ 16, addr := w % 2 ^ 26 } := by
    unfold decode
    rw [hop, and_mask5, and_mask5, and_mask5, and_mask5, and_mask6, and_mask16, and_mask26]
    simp only [Nat.shiftRight_eq_div_pow]
  refine ⟨hd, ?_⟩
  rw [hd]
  dsimp only
  omega

/-- Witness for C5: the word 0x01095020 (`add $10,$8,$9`). -/
theorem decode_fields_witness :
    decode 0x01095020 =
      { opcode := 0, rs := 8, rt := 9, rd := 10, shamt := 0, funct := 0x20,
        imm := 0x5020, addr := 0x1095020 } := by
  have h := (decode_fields 0x01095020 (by norm_num)).1
  simpa using h

/-- C6: for every 16-bit value `v`, `sign_extend v` is `v` when `v < 0x8000`
and `v ||| 0xFFFF0000` otherwise, and its signed 32-bit reading equals the
signed 16-bit reading of `v`. -/
theorem sign_extend_spec (v : Nat) (hv : v < 2 ^ 16) :
    sign_extend v = (if v < 0x8000 then v else v ||| 0xFFFF0000) ∧
    toInt32 (sign_extend v) = toInt16 v := by
  have hor := or_0xFFFF0000 v hv
  have hbit := and_0x8000_ne_zero_iff v
  unfold sign_extend toInt32 toInt16
  by_cases hlt : v < 0x8000
  · have hz : ¬ (v &&& 0x8000 ≠ 0) := by rw [hbit]; omega
    rw [if_neg hz, if_pos hlt]
    constructor
    · rfl
    · rw [if_pos (by omega), if_pos (by omega)]
  · have hz : v &&& 0x8000 ≠ 0 := by rw [hbit]; omega
    rw [if_pos hz, if_neg hlt, hor]
    constructor
    · rfl
    · rw [if_neg (by omega), if_neg (by omega)]
      push_cast
      omega

/-- Witness for C6: `sign_extend 0xFFFF = 0xFFFFFFFF`, read as `-1`. -/
theorem sign_extend_spec_witness :
    sign_extend 0xFFFF = 0xFFFFFFFF ∧ toInt32 (sign_extend 0xFFFF) = -1 := by
  have h := sign_extend_spec 0xFFFF (by norm_num)
  exact ⟨h.1.trans (by decide), h.2.trans (by decide)⟩

/-- C7: for every conditional branch (beq, bne, blez, bgtz, bltz, bgez, bltzal,
bgezal) the step sets `next.PC` to `current.PC + 4 + (sign_extend(imm) << 2)`
modulo `2^32` when the branch condition holds on the current state, and to
`current.PC + 4` otherwise; a taken branch with `imm = 0xFFFF` gives
`next.PC = current.PC`. -/
theorem branch_pc (ops : MemOps M) (w : Nat) (s : Machine M) (c : Bool)
    (hc : branchCond (decode w) s.CURRENT_STATE = some c) :
    ∃ s', execute ops (decode w) s = some s' ∧
      s'.NEXT_STATE.PC =
        (if c then branchTarget s.CURRENT_STATE.PC (decode w).imm
         else fallThrough s.CURRENT_STATE.PC) ∧
      (c = true → (decode w).imm = 0xFFFF → s.CURRENT_STATE.PC < 2 ^ 32 →
        s'.NEXT_STATE.PC = s.CURRENT_STATE.PC) := by
  obtain ⟨s', hs, hpc⟩ := cond_branch_any_record ops (decode w) s c hc
  refine ⟨s', hs, hpc, ?_⟩
  intro hct himm hlt
  have hse : sign_extend 0xFFFF = 0xFFFFFFFF := by decide
  rw [hpc, hct, if_pos rfl, himm, branchTarget, hse]
  omega

/-- Witness for C7 (scenario 3): `beq $1,$2,-1` (word 0x1022FFFF) at
`PC = 0x100` with `regs[1] = regs[2] = 0` is taken and gives `next.PC = 0x100`. -/
theorem branch_pc_witness :
    branchCond (decode 0x1022FFFF) (mkState 0x100 (fun _ => 0)) = some true ∧
    ∃ s', execute wordMem (decode 0x1022FFFF) (boot (mkState 0x100 (fun _ => 0))) = some s' ∧
      s'.NEXT_STATE.PC = 0x100 := by
  refine ⟨by decide, ?_⟩
  obtain ⟨s', hs, hpc, _⟩ :=
    branch_pc wordMem 0x1022FFFF (boot (mkState 0x100 (fun _ => 0))) true (by decide)
  exact ⟨s', hs, hpc.trans (by decide)⟩

/-- C8: for every `j` (opcode 0x02) or `jal` (opcode 0x03) word the step sets
`next.PC = (current.PC & 0xF0000000) | (addr << 2)`, with `addr` the 26-bit
field of the word and the high nibble taken from the jump's own PC. -/
theorem jump_pc (ops : MemOps M) (w : Nat) (s : Machine M)
    (hop : (decode w).opcode = 0x02 ∨ (decode w).opcode = 0x03) :
    ∃ s', execute ops (decode w) s = some s' ∧
      s'.NEXT_STATE.PC = (s.CURRENT_STATE.PC &&& 0xF0000000) ||| ((w % 2 ^ 26) <<< 2) := by
  obtain ⟨s', hs, hpc, _⟩ := jump_any_record ops (decode w) s hop (decode_addr_lt w)
  refine ⟨s', hs, ?_⟩
  rw [hpc]
  show _ ||| ((w &&& 0x3FFFFFF) <<< 2) = _
  rw [and_mask26]

/-- Witness for C8 (scenario 4): `j 0x100000` (word 0x08100000) at
`PC = 0x00400010` gives `next.PC = 0x00400000`. -/
theorem jump_pc_witness :
    (decode 0x08100000).opcode = 0x02 ∧
    ∃ s', execute wordMem (decode 0x08100000) (boot (mkState 0x00400010 (fun _ => 0))) = some s' ∧
      s'.NEXT_STATE.PC = 0x00400000 := by
  refine ⟨by decide, ?_⟩
  obtain ⟨s', hs, hpc⟩ :=
    jump_pc wordMem 0x08100000 (boot (mkState 0x00400010 (fun _ => 0))) (Or.inl (by decide))
  exact ⟨s', hs, hpc.trans (by decide)⟩

/-- C9: `jal` sets `next.regs[31] = current.PC + 4`; `jalr` sets
`next.regs[rd] = current.PC + 4` and `next.PC = current.regs[rs]`, also when
`rd = rs`; `bltzal` and `bgezal` set `next.regs[31] = current.PC + 4` when
taken and leave `regs[31]` at its current value when not taken (`next` starting
as a copy of `current`; `PC + 4` is taken modulo `2^32`). -/
theorem link_register (ops : MemOps M) (w : Nat) (s : Machine M)
    (hcopy : s.NEXT_STATE = s.CURRENT_STATE) :
    ((decode w).opcode = 0x03 →
      ∃ s', execute ops (decode w) s = some s' ∧
        s'.NEXT_STATE.REGS 31 = (s.CURRENT_STATE.PC + 4) % 2 ^ 32) ∧
    ((decode w).opcode = 0x00 → (decode w).funct = 0x09 →
      ∃ s', execute ops (decode w) s = some s' ∧
        s'.NEXT_STATE.REGS (decode w).rd = (s.CURRENT_STATE.PC + 4) % 2 ^ 32 ∧
        s'.NEXT_STATE.PC = s.CURRENT_STATE.REGS (decode w).rs) ∧
    ((decode w).opcode = 0x01 → (decode w).rt = 0x10 →
      ∃ s', execute ops (decode w) s = some s' ∧
        s'.NEXT_STATE.REGS 31 =
          if toInt32 (s.CURRENT_STATE.REGS (decode w).rs) < 0
          then (s.CURRENT_STATE.PC + 4) % 2 ^ 32 else s.CURRENT_STATE.REGS 31) ∧
    ((decode w).opcode = 0x01 → (decode w).rt = 0x11 →
      ∃ s', execute ops (decode w) s = some s' ∧
        s'.NEXT_STATE.REGS 31 =
          if 0 ≤ toInt32 (s.CURRENT_STATE.REGS (decode w).rs)
          then (s.CURRENT_STATE.PC + 4) % 2 ^ 32 else s.CURRENT_STATE.REGS 31) := by
  refine ⟨?_, ?_, ?_, ?_⟩
  · intro h
    obtain ⟨s', hs, _, hl⟩ := jump_any_record ops (decode w) s (Or.inr h) (decode_addr_lt w)
    exact ⟨s', hs, hl h⟩
  · intro h hf
    simp [execute, h, hf, Machine.setPC, Machine.setReg, Machine.reg, u32]
  · intro h hrt
    by_cases hb : toInt32 (s.CURRENT_STATE.REGS (decode w).rs) < 0 <;>
      simp [execute, h, hrt, hb, Machine.setPC, Machine.setReg, Machine.reg, Machine.branch,
        Machine.advance, u32, hcopy]
  · intro h hrt
    by_cases hb : 0 ≤ toInt32 (s.CURRENT_STATE.REGS (decode w).rs) <;>
      simp [execute, h, hrt, hb, Machine.setPC, Machine.setReg, Machine.reg, Machine.branch,
        Machine.advance, u32, hcopy]

/-- Witness for C9: `jalr $5,$5` (word 0x00A02809, `rd = rs = 5`) at `PC = 0x100`
with `regs[5] = 0x2000` links `0x104` into register 5 and jumps to `0x2000`. -/
theorem link_register_witness :
    ∃ s', execute wordMem (decode 0x00A02809)
        (boot (mkState 0x100 (fun k => if k = 5 then 0x2000 else 0))) = some s' ∧
      s'.NEXT_STATE.REGS 5 = 0x104 ∧ s'.NEXT_STATE.PC = 0x2000 := by
  obtain ⟨s', hs, hr, hpc⟩ :=
    (link_register wordMem 0x00A02809
      (boot (mkState 0x100 (fun k => if k = 5 then 0x2000 else 0))) rfl).2.1
      (by decide) (by decide)
  exact ⟨s', hs, hr.trans (by decide), hpc.trans (by decide)⟩

/-- C10: the step clears the run flag exactly when the word is a `syscall` with
`regs[2] = 0x0A` or is unrecognised (opcode outside the tables, funct outside
the R-type table, REGIMM `rt` outside 0x00, 0x01, 0x10, 0x11); in those cases
registers, `HI`, `LO`, `PC` and memory of `next` equal those of `current`
(`next` starting as a copy of `current`).  In every other case the run flag
keeps its value, the step having no result only when its C division is
undefined. -/
theorem run_flag (ops : MemOps M) (w : Nat) (s : Machine M)
    (hcopy : s.NEXT_STATE = s.CURRENT_STATE) :
    (clearsRun (decode w) s.CURRENT_STATE →
      ∃ s', execute ops (decode w) s = some s' ∧ s'.RUN_BIT = false ∧
        s'.NEXT_STATE = s.CURRENT_STATE ∧ s'.mem = s.mem) ∧
    (¬ clearsRun (decode w) s.CURRENT_STATE →
      (execute ops (decode w) s = none ∧ divUndefined (decode w) s.CURRENT_STATE) ∨
      ∃ s', execute ops (decode w) s = some s' ∧ s'.RUN_BIT = s.RUN_BIT) := by
  obtain ⟨h1, h2⟩ := run_bit_any_record ops (decode w) s
  constructor
  · intro hc
    exact ⟨s.halt, h1 hc, rfl, hcopy, rfl⟩
  · intro hc
    cases h : execute ops (decode w) s with
    | none => exact Or.inl ⟨rfl, (execute_eq_none_iff ops _ s).1 h⟩
    | some s' => exact Or.inr ⟨s', rfl, h2 hc s' h⟩

/-- Witness for C10 (scenario 6 and an unknown opcode): `syscall`
(word 0x0000000C) with `regs[2] = 10`, and the word 0xFC000000 (opcode 0x3F),
both clear the run flag and leave `PC` at its current value 0x40. -/
theorem run_flag_witness :
    (∃ s', execute wordMem (decode 0x0000000C)
        (boot (mkState 0x40 (fun k => if k = 2 then 10 else 0))) = some s' ∧
      s'.RUN_BIT = false ∧ s'.NEXT_STATE.PC = 0x40) ∧
    (∃ s', execute wordMem (decode 0xFC000000) (boot (mkState 0x40 (fun _ => 0))) = some s' ∧
      s'.RUN_BIT = false ∧ s'.NEXT_STATE.PC = 0x40) := by
  constructor
  · obtain ⟨s', hs, hr, hn, _⟩ :=
      (run_flag wordMem 0x0000000C
        (boot (mkState 0x40 (fun k => if k = 2 then 10 else 0))) rfl).1 (by decide)
    exact ⟨s', hs, hr, by rw [hn]; rfl⟩
  · obtain ⟨s', hs, hr, hn, _⟩ :=
      (run_flag wordMem 0xFC000000 (boot (mkState 0x40 (fun _ => 0))) rfl).1 (by decide)
    exact ⟨s', hs, hr, by rw [hn]; rfl⟩

/-- C11: for 32-bit register values `a = regs[rs]` and `b = regs[rt]`, after
`multu` (opcode 0, funct 0x19) `next.HI * 2^32 + next.LO = a * b` as natural
numbers, `LO` being the low and `HI` the high 32 bits of the product. -/
theorem multu_product (ops : MemOps M) (w : Nat) (s : Machine M)
    (hop : (decode w).opcode = 0x00) (hf : (decode w).funct = 0x19)
    (ha : s.CURRENT_STATE.REGS (decode w).rs < 2 ^ 32)
    (hb : s.CURRENT_STATE.REGS (decode w).rt < 2 ^ 32) :
    ∃ s', execute ops (decode w) s = some s' ∧
      s'.NEXT_STATE.HI * 2 ^ 32 + s'.NEXT_STATE.LO =
        s.CURRENT_STATE.REGS (decode w).rs * s.CURRENT_STATE.REGS (decode w).rt ∧
      s'.NEXT_STATE.LO =
        (s.CURRENT_STATE.REGS (decode w).rs * s.CURRENT_STATE.REGS (decode w).rt) % 2 ^ 32 ∧
      s'.NEXT_STATE.HI =
        (s.CURRENT_STATE.REGS (decode w).rs * s.CURRENT_STATE.REGS (decode w).rt) / 2 ^ 32 ∧
      s'.NEXT_STATE.HI < 2 ^ 32 := by
  refine ⟨_, multu_any_record ops (decode w) s hop hf, ?_⟩
  have hp := mul_lt_two_pow_64 _ _ ha hb
  simp only [Machine.advance, Machine.setPC, Machine.setHI, Machine.setLO, Machine.reg, u32,
    Nat.shiftRight_eq_div_pow]
  generalize s.CURRENT_STATE.REGS (decode w).rs * s.CURRENT_STATE.REGS (decode w).rt = p at hp ⊢
  omega

/-- Witness for C11: `multu $8,$9` (word 0x01090019) with both operands
`0xFFFFFFFF` gives `HI = 0xFFFFFFFE`, `LO = 1`. -/
theorem multu_product_witness :
    ∃ s', execute wordMem (decode 0x01090019) (boot (mkState 0 (fun _ => 0xFFFFFFFF))) = some s' ∧
      s'.NEXT_STATE.HI = 0xFFFFFFFE ∧ s'.NEXT_STATE.LO = 1 := by
  obtain ⟨s', hs, _, hlo, hhi, _⟩ :=
    multu_product wordMem 0x01090019 (boot (mkState 0 (fun _ => 0xFFFFFFFF)))
      (by decide) (by decide) (by decide) (by decide)
  exact ⟨s', hs, hhi.trans (by decide), hlo.trans (by decide)⟩

/-- C12 (as stated it fails): `div $8,$9` (word 0x0109001A) with
`regs[8] = 0x80000000` (`-2^31`) and `regs[9] = 0xFFFFFFFF` (`-1`) has a
non-zero divisor, yet the step yields no next state: the C division
`INT_MIN / -1` is undefined, so no quotient modulo `2^32` is placed in `LO`. -/
theorem div_overflow_undefined :
    (decode 0x0109001A).opcode = 0x00 ∧ (decode 0x0109001A).funct = 0x1A ∧
    (decode 0x0109001A).rs = 8 ∧ (decode 0x0109001A).rt = 9 ∧
    (execute wordMem (decode 0x0109001A)
      (boot (mkState 0 (fun k => if k = 8 then 0x80000000 else 0xFFFFFFFF)))).isNone = true := by
  decide

/-- C12 (amended): with 32-bit operands `a = regs[rs]`, `b = regs[rt] ≠ 0`,
`divu` sets `LO = a / b` and `HI = a % b`, so `LO * b + HI = a` and `HI < b`;
`div`, unless `a = -2^31` and `b = -1`, sets `LO` to the quotient truncated
toward zero and `HI` to the remainder with the sign of the dividend, so in
signed reading `LO * b + HI = a` and `|HI| < |b|`; for `a = -2^31`, `b = -1`
the step has no result. -/
theorem div_divu_result (ops : MemOps M) (w : Nat) (s : Machine M)
    (hop : (decode w).opcode = 0x00)
    (ha : s.CURRENT_STATE.REGS (decode w).rs < 2 ^ 32)
    (hb : s.CURRENT_STATE.REGS (decode w).rt < 2 ^ 32)
    (hnz : s.CURRENT_STATE.REGS (decode w).rt ≠ 0) :
    ((decode w).funct = 0x1B →
      ∃ s', execute ops (decode w) s = some s' ∧
        s'.NEXT_STATE.LO = s.CURRENT_STATE.REGS (decode w).rs / s.CURRENT_STATE.REGS (decode w).rt ∧
        s'.NEXT_STATE.HI = s.CURRENT_STATE.REGS (decode w).rs % s.CURRENT_STATE.REGS (decode w).rt ∧
        s'.NEXT_STATE.LO * s.CURRENT_STATE.REGS (decode w).rt + s'.NEXT_STATE.HI =
          s.CURRENT_STATE.REGS (decode w).rs ∧
        s'.NEXT_STATE.HI < s.CURRENT_STATE.REGS (decode w).rt) ∧
    ((decode w).funct = 0x1A →
      ¬ (s.CURRENT_STATE.REGS (decode w).rs = 0x80000000 ∧
          s.CURRENT_STATE.REGS (decode w).rt = 0xFFFFFFFF) →
      ∃ s', execute ops (decode w) s = some s' ∧
        toInt32 s'.NEXT_STATE.LO =
          Int.tdiv (toInt32 (s.CURRENT_STATE.REGS (decode w).rs))
            (toInt32 (s.CURRENT_STATE.REGS (decode w).rt)) ∧
        toInt32 s'.NEXT_STATE.LO * toInt32 (s.CURRENT_STATE.REGS (decode w).rt) +
            toInt32 s'.NEXT_STATE.HI = toInt32 (s.CURRENT_STATE.REGS (decode w).rs) ∧
        (toInt32 s'.NEXT_STATE.HI).natAbs <
          (toInt32 (s.CURRENT_STATE.REGS (decode w).rt)).natAbs ∧
        (0 ≤ toInt32 (s.CURRENT_STATE.REGS (decode w).rs) → 0 ≤ toInt32 s'.NEXT_STATE.HI) ∧
        (toInt32 (s.CURRENT_STATE.REGS (decode w).rs) ≤ 0 → toInt32 s'.NEXT_STATE.HI ≤ 0)) ∧
    ((decode w).funct = 0x1A →
      s.CURRENT_STATE.REGS (decode w).rs = 0x80000000 →
      s.CURRENT_STATE.REGS (decode w).rt = 0xFFFFFFFF →
      execute ops (decode w) s = none) := by
  refine ⟨?_, ?_, ?_⟩
  · intro hf
    refine ⟨_, divu_any_record ops (decode w) s hop hf hnz, rfl, rfl, ?_, ?_⟩
    · show s.CURRENT_STATE.REGS (decode w).rs / s.CURRENT_STATE.REGS (decode w).rt *
          s.CURRENT_STATE.REGS (decode w).rt +
          s.CURRENT_STATE.REGS (decode w).rs % s.CURRENT_STATE.REGS (decode w).rt = _
      exact Nat.div_add_mod' _ _
    · exact Nat.mod_lt _ (Nat.pos_of_ne_zero hnz)
  · intro hf hov
    have hra := toInt32_range _ ha
    have hrb := toInt32_range _ hb
    have hbz : toInt32 (s.CURRENT_STATE.REGS (decode w).rt) ≠ 0 := by
      rw [Ne, toInt32_eq_zero_iff _ hb]; exact hnz
    have hov' : ¬ (toInt32 (s.CURRENT_STATE.REGS (decode w).rs) = -2 ^ 31 ∧
        toInt32 (s.CURRENT_STATE.REGS (decode w).rt) = -1) := by
      rw [toInt32_eq_min_iff _ ha, toInt32_eq_neg_one_iff _ hb]
      exact hov
    have hq := tdiv_range _ _ hra hov'
    have hm := natAbs_tmod_lt (toInt32 (s.CURRENT_STATE.REGS (decode w).rs)) _ hbz
    have hsg := tmod_sign (toInt32 (s.CURRENT_STATE.REGS (decode w).rs))
      (toInt32 (s.CURRENT_STATE.REGS (decode w).rt))
    have hrr : -2 ^ 31 ≤ Int.tmod (toInt32 (s.CURRENT_STATE.REGS (decode w).rs))
          (toInt32 (s.CURRENT_STATE.REGS (decode w).rt)) ∧
        Int.tmod (toInt32 (s.CURRENT_STATE.REGS (decode w).rs))
          (toInt32 (s.CURRENT_STATE.REGS (decode w).rt)) < 2 ^ 31 := by omega
    refine ⟨_, div_any_record ops (decode w) s hop hf (by
      simp only [Machine.reg]; exact fun h => h.elim hbz hov'), ?_⟩
    simp only [Machine.advance, Machine.setPC, Machine.setHI, Machine.setLO, Machine.reg]
    rw [toInt32_ofInt _ hq, toInt32_ofInt _ hrr]
    exact ⟨rfl, Int.tdiv_add_tmod' _ _, hm, hsg.1, hsg.2⟩
  · intro hf h1 h2
    rw [execute_eq_none_iff]
    refine ⟨hop, Or.inl ⟨hf, Or.inr ?_⟩⟩
    rw [h1, h2]
    decide

/-- Witness for C12 (amended): `div $8,$9` (word 0x0109001A) with
`regs[8] = 0xFFFFFFF9` (`-7`) and `regs[9] = 2` gives `LO = -3`, `HI = -1`. -/
theorem div_divu_result_witness :
    ∃ s', execute wordMem (decode 0x0109001A)
        (boot (mkState 0 (fun k => if k = 8 then 0xFFFFFFF9 else 2))) = some s' ∧
      toInt32 s'.NEXT_STATE.LO = -3 ∧ (toInt32 s'.NEXT_STATE.HI).natAbs < 2 := by
  obtain ⟨s', hs, hlo, _, hhi, _⟩ :=
    (div_divu_result wordMem 0x0109001A
      (boot (mkState 0 (fun k => if k = 8 then 0xFFFFFFF9 else 2)))
      (by decide) (by decide) (by decide) (by decide)).2.1 (by decide) (by decide)
  exact ⟨s', hs, hlo.trans (by decide), hhi⟩

/-- C13: for all field values, `add` (funct 0x20) yields exactly the next
state and run flag of `addu` (funct 0x21), `sub` (0x22) that of `subu` (0x23),
and `addi` (opcode 0x08) that of `addiu` (0x09); the result is the sum or
difference modulo `2^32` (`rs + sign_extend(imm)` for the immediate forms),
`PC` advances by 4 and the run flag is kept.  Scenarios: `add $10,$8,$9`
(word 0x01095020) with `regs[8] = 5`, `regs[9] = 7` gives `regs[10] = 12`,
`PC = 4`; `addi $2,$1,0xFFFF` (word 0x2022FFFF) with `regs[1] = 0` gives
`regs[2] = 0xFFFFFFFF`. -/
theorem add_sub_signed_as_unsigned (ops : MemOps M) (s : Machine M)
    (rs rt rd shamt funct imm addr : Nat) :
    (execute ops ⟨0x00, rs, rt, rd, shamt, 0x20, imm, addr⟩ s =
        execute ops ⟨0x00, rs, rt, rd, shamt, 0x21, imm, addr⟩ s ∧
      ∃ s', execute ops ⟨0x00, rs, rt, rd, shamt, 0x21, imm, addr⟩ s = some s' ∧
        s'.NEXT_STATE.REGS rd = (s.CURRENT_STATE.REGS rs + s.CURRENT_STATE.REGS rt) % 2 ^ 32 ∧
        s'.NEXT_STATE.PC = (s.CURRENT_STATE.PC + 4) % 2 ^ 32 ∧ s'.RUN_BIT = s.RUN_BIT) ∧
    (execute ops ⟨0x00, rs, rt, rd, shamt, 0x22, imm, addr⟩ s =
        execute ops ⟨0x00, rs, rt, rd, shamt, 0x23, imm, addr⟩ s ∧
      ∃ s', execute ops ⟨0x00, rs, rt, rd, shamt, 0x23, imm, addr⟩ s = some s' ∧
        (s'.NEXT_STATE.REGS rd : Int) =
          ((s.CURRENT_STATE.REGS rs : Int) - (s.CURRENT_STATE.REGS rt : Int)) % 2 ^ 32 ∧
        s'.NEXT_STATE.PC = (s.CURRENT_STATE.PC + 4) % 2 ^ 32 ∧ s'.RUN_BIT = s.RUN_BIT) ∧
    (execute ops ⟨0x08, rs, rt, rd, shamt, funct, imm, addr⟩ s =
        execute ops ⟨0x09, rs, rt, rd, shamt, funct, imm, addr⟩ s ∧
      ∃ s', execute ops ⟨0x09, rs, rt, rd, shamt, funct, imm, addr⟩ s = some s' ∧
        s'.NEXT_STATE.REGS rt = (s.CURRENT_STATE.REGS rs + sign_extend imm) % 2 ^ 32 ∧
        s'.NEXT_STATE.PC = (s.CURRENT_STATE.PC + 4) % 2 ^ 32 ∧ s'.RUN_BIT = s.RUN_BIT) ∧
    (execute wordMem (decode 0x01095020)
        (boot (mkState 0 (fun k => if k = 8 then 5 else if k = 9 then 7 else 0)))).map
      (fun m => (m.NEXT_STATE.REGS 10, m.NEXT_STATE.PC, m.RUN_BIT)) = some (12, 4, true) ∧
    (execute wordMem (decode 0x2022FFFF) (boot (mkState 0 (fun _ => 0)))).map
      (fun m => (m.NEXT_STATE.REGS 2, m.NEXT_STATE.PC, m.RUN_BIT)) = some (0xFFFFFFFF, 4, true) := by
  refine ⟨⟨rfl, _, rfl, ?_, rfl, rfl⟩, ⟨rfl, _, rfl, ?_, rfl, rfl⟩, ⟨rfl, _, rfl, ?_, rfl, rfl⟩,
    by decide, by decide⟩
  · simp [Machine.advance, Machine.setPC, Machine.setReg, Machine.reg, u32]
  · simp only [Machine.advance, Machine.setPC, Machine.setReg, Machine.reg, ofInt, if_true]
    exact Int.toNat_of_nonneg (Int.emod_nonneg _ (by norm_num))
  · simp [Machine.advance, Machine.setPC, Machine.setReg, Machine.reg, u32]

/-- C17: for a 32-bit value `x = regs[rt]`, `sra` sets `regs[rd]` to the
arithmetic right shift of `x` by `s = shamt`: the logical shift `x / 2^s` with
the vacated top `s` bits filled with copies of bit 31, whose signed reading is
`floor(signed(x) / 2^s)`; `srav` does the same with `s = regs[rs] & 0x1F`. -/
theorem sra_srav_arithmetic (ops : MemOps M) (w : Nat) (s : Machine M)
    (hop : (decode w).opcode = 0x00)
    (hx : s.CURRENT_STATE.REGS (decode w).rt < 2 ^ 32) :
    ((decode w).funct = 0x03 →
      ∃ s', execute ops (decode w) s = some s' ∧
        s'.NEXT_STATE.REGS (decode w).rd =
          s.CURRENT_STATE.REGS (decode w).rt / 2 ^ (decode w).shamt +
            (if s.CURRENT_STATE.REGS (decode w).rt < 2 ^ 31 then 0
             else 2 ^ 32 - 2 ^ (32 - (decode w).shamt)) ∧
        toInt32 (s'.NEXT_STATE.REGS (decode w).rd) =
          Int.fdiv (toInt32 (s.CURRENT_STATE.REGS (decode w).rt)) (2 ^ (decode w).shamt)) ∧
    ((decode w).funct = 0x07 →
      ∃ s', execute ops (decode w) s = some s' ∧
        s'.NEXT_STATE.REGS (decode w).rd =
          s.CURRENT_STATE.REGS (decode w).rt / 2 ^ (s.CURRENT_STATE.REGS (decode w).rs &&& 0x1F) +
            (if s.CURRENT_STATE.REGS (decode w).rt < 2 ^ 31 then 0
             else 2 ^ 32 - 2 ^ (32 - (s.CURRENT_STATE.REGS (decode w).rs &&& 0x1F))) ∧
        toInt32 (s'.NEXT_STATE.REGS (decode w).rd) =
          Int.fdiv (toInt32 (s.CURRENT_STATE.REGS (decode w).rt))
            (2 ^ (s.CURRENT_STATE.REGS (decode w).rs &&& 0x1F))) := by
  have hsh : (decode w).shamt < 32 := and_0x1F_lt _
  have hsv : s.CURRENT_STATE.REGS (decode w).rs &&& 0x1F < 32 := and_0x1F_lt _
  constructor
  · intro hf
    refine ⟨(s.setReg (decode w).rd (sra32 (s.reg (decode w).rt) (decode w).shamt)).advance,
      by simp [execute, hop, hf], ?_⟩
    simp only [Machine.advance, Machine.setPC, Machine.setReg, Machine.reg, if_true]
    exact sra32_spec _ _ hx hsh
  · intro hf
    refine ⟨(s.setReg (decode w).rd
        (sra32 (s.reg (decode w).rt) (s.reg (decode w).rs &&& 0x1F))).advance,
      by simp [execute, hop, hf], ?_⟩
    simp only [Machine.advance, Machine.setPC, Machine.setReg, Machine.reg, if_true]
    exact sra32_spec _ _ hx hsv

/-- Witness for C17 (scenario 5): `sra $9,$8,4` (word 0x00084903) with
`regs[8] = 0xFFFFFFF0` gives `regs[9] = 0xFFFFFFFF`. -/
theorem sra_srav_arithmetic_witness :
    ∃ s', execute wordMem (decode 0x00084903) (boot (mkState 0 (fun _ => 0xFFFFFFF0))) = some s' ∧
      s'.NEXT_STATE.REGS 9 = 0xFFFFFFFF := by
  obtain ⟨s', hs, hv, _⟩ :=
    (sra_srav_arithmetic wordMem 0x00084903 (boot (mkState 0 (fun _ => 0xFFFFFFF0)))
      (by decide) (by decide)).1 (by decide)
  exact ⟨s', hs, hv.trans (by decide)⟩

/-- C18: for every register index `rt` (0 included) and 16-bit immediates
`imm`, `imm2`, executing `lui rt, imm`, committing `next` over `current`, then
executing `ori rt, rt, imm2` leaves `regs[rt] = (imm << 16) | imm2` and the
`PC` advanced by 8 (modulo `2^32`). -/
theorem lui_ori (ops : MemOps M) (w1 w2 : Nat) (s : Machine M)
    (h1 : (decode w1).opcode = 0x0F) (h2 : (decode w2).opcode = 0x0D)
    (hrs : (decode w2).rs = (decode w1).rt) (hrt : (decode w2).rt = (decode w1).rt) :
    ∃ s1 s2, execute ops (decode w1) s = some s1 ∧
      execute ops (decode w2) (commit s1) = some s2 ∧
      s2.NEXT_STATE.REGS (decode w1).rt = ((decode w1).imm <<< 16) ||| (decode w2).imm ∧
      s2.NEXT_STATE.PC = (s.CURRENT_STATE.PC + 8) % 2 ^ 32 := by
  have hi := decode_imm_lt w1
  have hsh : u32 ((decode w1).imm <<< 16) = (decode w1).imm <<< 16 := by
    unfold u32
    rw [Nat.shiftLeft_eq]
    omega
  refine ⟨_, _, lui_any_record ops (decode w1) s h1, ori_any_record ops (decode w2) _ h2, ?_, ?_⟩
  · simp [Machine.advance, Machine.setPC, Machine.setReg, Machine.reg, commit, hrs, hrt, hsh]
  · simp only [Machine.advance, Machine.setPC, Machine.setReg, commit, u32]
    omega

/-- Witness for C18: `lui $0,0x1234` (word 0x3C001234) then `ori $0,$0,0x5678`
(word 0x34005678) leave `regs[0] = 0x12345678` and `PC = 8`. -/
theorem lui_ori_witness :
    ∃ s1 s2, execute wordMem (decode 0x3C001234) (boot (mkState 0 (fun _ => 0))) = some s1 ∧
      execute wordMem (decode 0x34005678) (commit s1) = some s2 ∧
      s2.NEXT_STATE.REGS 0 = 0x12345678 ∧ s2.NEXT_STATE.PC = 8 := by
  obtain ⟨s1, s2, e1, e2, hv, hpc⟩ :=
    lui_ori wordMem 0x3C001234 0x34005678 (boot (mkState 0 (fun _ => 0)))
      (by decide) (by decide) (by decide) (by decide)
  exact ⟨s1, s2, e1, e2, hv.trans (by decide), hpc.trans (by decide)⟩

/-- C19 (as stated it fails): with `regs[9] = 0`, `div $8,$9` (word 0x0109001A)
and `divu $8,$9` (word 0x0109001B) divide by zero with no guard; the C division
is undefined and the step yields no next state. -/
theorem div_by_zero_undefined :
    (decode 0x0109001A).opcode = 0x00 ∧ (decode 0x0109001A).funct = 0x1A ∧
    (decode 0x0109001B).opcode = 0x00 ∧ (decode 0x0109001B).funct = 0x1B ∧
    (decode 0x0109001A).rt = 9 ∧ (decode 0x0109001B).rt = 9 ∧
    (execute wordMem (decode 0x0109001A)
      (boot (mkState 0 (fun k => if k = 9 then 0 else 7)))).isNone = true ∧
    (execute wordMem (decode 0x0109001B)
      (boot (mkState 0 (fun k => if k = 9 then 0 else 7)))).isNone = true := by
  decide

/-- C19 (amended): `div` and `divu` divide without a guard.  With
`regs[rt] = 0` the step has no result; whenever the C division is defined
(`regs[rt] ≠ 0` and, for `div`, not `INT_MIN / -1`) the step returns a next
state and leaves the run flag unaffected. -/
theorem div_divu_defined_only (ops : MemOps M) (w : Nat) (s : Machine M)
    (hop : (decode w).opcode = 0x00)
    (hf : (decode w).funct = 0x1A ∨ (decode w).funct = 0x1B) :
    (s.CURRENT_STATE.REGS (decode w).rt = 0 → execute ops (decode w) s = none) ∧
    (¬ divUndefined (decode w) s.CURRENT_STATE →
      ∃ s', execute ops (decode w) s = some s' ∧ s'.RUN_BIT = s.RUN_BIT) := by
  constructor
  · intro h0
    rw [execute_eq_none_iff]
    rcases hf with hf | hf
    · exact ⟨hop, Or.inl ⟨hf, Or.inl (by rw [h0]; rfl)⟩⟩
    · exact ⟨hop, Or.inr ⟨hf, h0⟩⟩
  · intro hd
    have hnc : ¬ clearsRun (decode w) s.CURRENT_STATE := by
      rcases hf with hf | hf <;> simp [clearsRun, recognised, hop, hf]
    cases h : execute ops (decode w) s with
    | none => exact absurd ((execute_eq_none_iff ops _ s).1 h) hd
    | some s' => exact ⟨s', rfl, (run_bit_any_record ops (decode w) s).2 hnc s' h⟩

/-- Witness for C19 (amended): `divu $8,$9` (word 0x0109001B) with
`regs[8] = 7`, `regs[9] = 2` returns a next state with the run flag still set. -/
theorem div_divu_defined_only_witness :
    ∃ s', execute wordMem (decode 0x0109001B)
        (boot (mkState 0 (fun k => if k = 9 then 2 else 7))) = some s' ∧ s'.RUN_BIT = true := by
  obtain ⟨s', hs, hr⟩ :=
    (div_divu_defined_only wordMem 0x0109001B
      (boot (mkState 0 (fun k => if k = 9 then 2 else 7)))
      (by decide) (Or.inr (by decide))).2 (by decide)
  exact ⟨s', hs, hr⟩

/-- C14: over a memory in which a word read returns the last word written to
the same address, executing `sw rt, imm(rs)`, committing `next` over `current`
(`next` having started as a copy of `current`), then executing
`lw rd, imm(rs)` with the same base and offset leaves `regs[rd]` equal to the
32-bit value `regs[rt]` had before the `sw`; in particular for offset 0 and a
word-aligned base. -/
theorem sw_lw_roundtrip (ops : MemOps M) (hmem : ops.ReadsLastWrite) (w1 w2 : Nat)
    (s : Machine M) (hcopy : s.NEXT_STATE = s.CURRENT_STATE)
    (h1 : (decode w1).opcode = 0x2B) (h2 : (decode w2).opcode = 0x23)
    (hrs : (decode w2).rs = (decode w1).rs) (himm : (decode w2).imm = (decode w1).imm)
    (hv : s.CURRENT_STATE.REGS (decode w1).rt < 2 ^ 32) :
    ∃ s1 s2, execute ops (decode w1) s = some s1 ∧
      execute ops (decode w2) (commit s1) = some s2 ∧
      s2.NEXT_STATE.REGS (decode w2).rt = s.CURRENT_STATE.REGS (decode w1).rt := by
  refine ⟨_, _, sw_any_record ops (decode w1) s h1, lw_any_record ops (decode w2) _ h2, ?_⟩
  rw [setReg_advance_REGS, ea_commit_store ops s _ _ (decode w1) (decode w2) hcopy hrs himm,
    load_commit_store ops hmem]
  exact Nat.mod_eq_of_lt hv

/-- Witness for C14: `sw $9,0($8)` (word 0xAD090000) then `lw $10,0($8)`
(word 0x8D0A0000) with `regs[8] = 0x1000`, `regs[9] = 0xDEADBEEF` leave
`regs[10] = 0xDEADBEEF`. -/
theorem sw_lw_roundtrip_witness :
    ∃ s1 s2, execute wordMem (decode 0xAD090000)
        (boot (mkState 0 (fun k => if k = 8 then 0x1000 else 0xDEADBEEF))) = some s1 ∧
      execute wordMem (decode 0x8D0A0000) (commit s1) = some s2 ∧
      s2.NEXT_STATE.REGS 10 = 0xDEADBEEF := by
  obtain ⟨s1, s2, e1, e2, hv⟩ :=
    sw_lw_roundtrip wordMem wordMem_readsLastWrite 0xAD090000 0x8D0A0000
      (boot (mkState 0 (fun k => if k = 8 then 0x1000 else 0xDEADBEEF))) rfl
      (by decide) (by decide) (by decide) (by decide) (by decide)
  exact ⟨s1, s2, e1, e2, hv.trans (by decide)⟩

/-- C15: over a memory in which a word read returns the last word written to
the same address, `sh` of `v = regs[rt]` followed (after the commit) by `lh`
at the same base and offset loads the sign extension of `v & 0xFFFF`, and `sb`
of `v` followed by `lbu` at the same base and offset loads `v & 0xFF`. -/
theorem subword_roundtrip (ops : MemOps M) (hmem : ops.ReadsLastWrite) (w1 w2 : Nat)
    (s : Machine M) (hcopy : s.NEXT_STATE = s.CURRENT_STATE)
    (hrs : (decode w2).rs = (decode w1).rs) (himm : (decode w2).imm = (decode w1).imm) :
    ((decode w1).opcode = 0x29 → (decode w2).opcode = 0x21 →
      ∃ s1 s2, execute ops (decode w1) s = some s1 ∧
        execute ops (decode w2) (commit s1) = some s2 ∧
        s2.NEXT_STATE.REGS (decode w2).rt =
          sign_extend (s.CURRENT_STATE.REGS (decode w1).rt &&& 0xFFFF)) ∧
    ((decode w1).opcode = 0x28 → (decode w2).opcode = 0x24 →
      ∃ s1 s2, execute ops (decode w1) s = some s1 ∧
        execute ops (decode w2) (commit s1) = some s2 ∧
        s2.NEXT_STATE.REGS (decode w2).rt = s.CURRENT_STATE.REGS (decode w1).rt &&& 0xFF) := by
  constructor
  · intro h1 h2
    refine ⟨_, _, sh_any_record ops (decode w1) s h1, lh_any_record ops (decode w2) _ h2, ?_⟩
    rw [setReg_advance_REGS, ea_commit_store ops s _ _ (decode w1) (decode w2) hcopy hrs himm,
      load_commit_store ops hmem]
    unfold u32
    rw [merge_half_low]
    rfl
  · intro h1 h2
    refine ⟨_, _, sb_any_record ops (decode w1) s h1, lbu_any_record ops (decode w2) _ h2, ?_⟩
    rw [setReg_advance_REGS, ea_commit_store ops s _ _ (decode w1) (decode w2) hcopy hrs himm,
      load_commit_store ops hmem]
    unfold u32
    rw [merge_byte_low]
    rfl

/-- Witness for C15: `sh $9,2($8)` (word 0xA5090002) then `lh $10,2($8)`
(word 0x850A0002) with `regs[8] = 0x1000`, `regs[9] = 0x1234ABCD` leave
`regs[10] = 0xFFFFABCD`. -/
theorem subword_roundtrip_witness :
    ∃ s1 s2, execute wordMem (decode 0xA5090002)
        (boot (mkState 0 (fun k => if k = 8 then 0x1000 else 0x1234ABCD))) = some s1 ∧
      execute wordMem (decode 0x850A0002) (commit s1) = some s2 ∧
      s2.NEXT_STATE.REGS 10 = 0xFFFFABCD := by
  obtain ⟨s1, s2, e1, e2, hv⟩ :=
    (subword_roundtrip wordMem wordMem_readsLastWrite 0xA5090002 0x850A0002
      (boot (mkState 0 (fun k => if k = 8 then 0x1000 else 0x1234ABCD))) rfl
      (by decide) (by decide)).1 (by decide) (by decide)
  exact ⟨s1, s2, e1, e2, hv.trans (by decide)⟩

/-- C16: `sb` performs one memory write, at the effective address
`A = regs[rs] + sign_extend(imm)`, of `(old & 0xFFFFFF00) | (regs[rt] & 0xFF)`
where `old` is the word read at `A`; `sh` writes
`(old & 0xFFFF0000) | (regs[rt] & 0xFFFF)` at `A`.  Over a memory that reads
back the last write and changes no other address, the upper 24 (resp. 16) bits
of the word at `A` are preserved, the stored value is in the low lane whatever
`A & 3` is, and the words at every other address are unchanged. -/
theorem sb_sh_write (ops : MemOps M) (hrw : ops.ReadsLastWrite) (hfr : ops.WritesOnlyAt)
    (w : Nat) (s : Machine M) :
    ((decode w).opcode = 0x28 →
      ∃ s', execute ops (decode w) s = some s' ∧
        s'.mem = ops.mem_write_32 s.mem
          ((s.CURRENT_STATE.REGS (decode w).rs + sign_extend (decode w).imm) % 2 ^ 32)
          ((ops.mem_read_32 s.mem
              ((s.CURRENT_STATE.REGS (decode w).rs + sign_extend (decode w).imm) % 2 ^ 32)
              % 2 ^ 32 &&& 0xFFFFFF00) |||
            (s.CURRENT_STATE.REGS (decode w).rt &&& 0xFF)) ∧
        ops.mem_read_32 s'.mem
            ((s.CURRENT_STATE.REGS (decode w).rs + sign_extend (decode w).imm) % 2 ^ 32)
            &&& 0xFFFFFF00 =
          ops.mem_read_32 s.mem
            ((s.CURRENT_STATE.REGS (decode w).rs + sign_extend (decode w).imm) % 2 ^ 32)
            % 2 ^ 32 &&& 0xFFFFFF00 ∧
        ops.mem_read_32 s'.mem
            ((s.CURRENT_STATE.REGS (decode w).rs + sign_extend (decode w).imm) % 2 ^ 32)
            % 2 ^ 32 &&& 0xFF = s.CURRENT_STATE.REGS (decode w).rt &&& 0xFF ∧
        ∀ b, b ≠ (s.CURRENT_STATE.REGS (decode w).rs + sign_extend (decode w).imm) % 2 ^ 32 →
          ops.mem_read_32 s'.mem b = ops.mem_read_32 s.mem b) ∧
    ((decode w).opcode = 0x29 →
      ∃ s', execute ops (decode w) s = some s' ∧
        s'.mem = ops.mem_write_32 s.mem
          ((s.CURRENT_STATE.REGS (decode w).rs + sign_extend (decode w).imm) % 2 ^ 32)
          ((ops.mem_read_32 s.mem
              ((s.CURRENT_STATE.REGS (decode w).rs + sign_extend (decode w).imm) % 2 ^ 32)
              % 2 ^ 32 &&& 0xFFFF0000) |||
            (s.CURRENT_STATE.REGS (decode w).rt &&& 0xFFFF)) ∧
        ops.mem_read_32 s'.mem
            ((s.CURRENT_STATE.REGS (decode w).rs + sign_extend (decode w).imm) % 2 ^ 32)
            &&& 0xFFFF0000 =
          ops.mem_read_32 s.mem
            ((s.CURRENT_STATE.REGS (decode w).rs + sign_extend (decode w).imm) % 2 ^ 32)
            % 2 ^ 32 &&& 0xFFFF0000 ∧
        ops.mem_read_32 s'.mem
            ((s.CURRENT_STATE.REGS (decode w).rs + sign_extend (decode w).imm) % 2 ^ 32)
            % 2 ^ 32 &&& 0xFFFF = s.CURRENT_STATE.REGS (decode w).rt &&& 0xFFFF ∧
        ∀ b, b ≠ (s.CURRENT_STATE.REGS (decode w).rs + sign_extend (decode w).imm) % 2 ^ 32 →
          ops.mem_read_32 s'.mem b = ops.mem_read_32 s.mem b) := by
  constructor
  · intro h
    refine ⟨_, sb_any_record ops (decode w) s h, ?_⟩
    simp only [Machine.advance, Machine.setPC, Machine.store, Machine.load, Machine.ea,
      Machine.reg, u32]
    rw [Nat.or_comm]
    refine ⟨rfl, ?_, ?_, fun b hb => hfr _ _ _ b hb⟩
    · rw [hrw, merge_byte_high]
    · rw [hrw, Nat.or_comm, merge_byte_low]
  · intro h
    refine ⟨_, sh_any_record ops (decode w) s h, ?_⟩
    simp only [Machine.advance, Machine.setPC, Machine.store, Machine.load, Machine.ea,
      Machine.reg, u32]
    rw [Nat.or_comm]
    refine ⟨rfl, ?_, ?_, fun b hb => hfr _ _ _ b hb⟩
    · rw [hrw, merge_half_high]
    · rw [hrw, Nat.or_comm, merge_half_low]

/-- Witness for C16: `sb $9,3($8)` (word 0xA1090003) with `regs[8] = 0x1000`,
`regs[9] = 0x11223344` over a memory holding `0xAABBCCDD` everywhere writes
`0xAABBCC44` at the unaligned address `0x1003` and leaves `0x1000` untouched. -/
theorem sb_sh_write_witness :
    ∃ s', execute wordMem (decode 0xA1090003)
        (bootMem (mkState 0 (fun k => if k = 8 then 0x1000 else 0x11223344))
          (fun _ => 0xAABBCCDD)) = some s' ∧
      s'.mem 0x1003 = 0xAABBCC44 ∧ s'.mem 0x1000 = 0xAABBCCDD := by
  obtain ⟨s', hs, hm, _, _, hfr⟩ :=
    (sb_sh_write wordMem wordMem_readsLastWrite wordMem_writesOnlyAt 0xA1090003
      (bootMem (mkState 0 (fun k => if k = 8 then 0x1000 else 0x11223344))
        (fun _ => 0xAABBCCDD))).1 (by decide)
  refine ⟨s', hs, ?_, ?_⟩
  · rw [hm]
    decide
  · exact (hfr 0x1000 (by decide)).trans rfl

/-- C20: with `current.PC` a multiple of 4 and `next` starting as a copy of
`current`, a step either has no result because its C division is undefined, or
yields a next state whose `PC` is a multiple of 4 for every word (recognised or
not) other than `jr` and `jalr`; for `jr` and `jalr`, `next.PC` is a multiple of
4 exactly when `current.regs[rs]` is. -/
theorem pc_alignment (ops : MemOps M) (w : Nat) (s : Machine M)
    (hcopy : s.NEXT_STATE = s.CURRENT_STATE) (hpc : s.CURRENT_STATE.PC % 4 = 0) :
    (execute ops (decode w) s = none ∧ divUndefined (decode w) s.CURRENT_STATE) ∨
    ∃ s', execute ops (decode w) s = some s' ∧
      (¬ ((decode w).opcode = 0x00 ∧ ((decode w).funct = 0x08 ∨ (decode w).funct = 0x09)) →
        s'.NEXT_STATE.PC % 4 = 0) ∧
      ((decode w).opcode = 0x00 ∧ ((decode w).funct = 0x08 ∨ (decode w).funct = 0x09) →
        (s'.NEXT_STATE.PC % 4 = 0 ↔ s.CURRENT_STATE.REGS (decode w).rs % 4 = 0)) := by
  cases h : execute ops (decode w) s with
  | none => exact Or.inl ⟨rfl, (execute_eq_none_iff ops _ s).1 h⟩
  | some s' =>
    obtain ⟨h1, h2⟩ := pc_any_record ops (decode w) s s' hcopy hpc h
    exact Or.inr ⟨s', rfl, h1, fun hc => by rw [h2 hc]⟩

/-- Witness for C20: at `PC = 0x100`, `beq $1,$2,-1` (word 0x1022FFFF) keeps
`next.PC` a multiple of 4, while `jr $5` (word 0x00A00008) with
`regs[5] = 0x2002` does not. -/
theorem pc_alignment_witness :
    (∃ s', execute wordMem (decode 0x1022FFFF) (boot (mkState 0x100 (fun _ => 0))) = some s' ∧
      s'.NEXT_STATE.PC % 4 = 0) ∧
    (∃ s', execute wordMem (decode 0x00A00008) (boot (mkState 0x100 (fun _ => 0x2002))) = some s' ∧
      ¬ s'.NEXT_STATE.PC % 4 = 0) := by
  constructor
  · rcases pc_alignment wordMem 0x1022FFFF (boot (mkState 0x100 (fun _ => 0))) rfl
        (by decide) with h | ⟨s', hs, h1, _⟩
    · exact absurd h.2 (by decide)
    · exact ⟨s', hs, h1 (by decide)⟩
  · rcases pc_alignment wordMem 0x00A00008 (boot (mkState 0x100 (fun _ => 0x2002))) rfl
        (by decide) with h | ⟨s', hs, _, h2⟩
    · exact absurd h.2 (by decide)
    · exact ⟨s', hs, fun hp => absurd ((h2 (by decide)).1 hp) (by decide)⟩

end Claims

end Sim
